import Mathlib

/-!
Shallow embedding of the classification-and-scan engine of a browser
extension that filters video recommendations (content script `content.js`).

The embedding translates, from the source:
  * the text normalizer (`normalizeText`, `containsToken`, `containsAny`,
    `normalizeList`, `buildMatchers`);
  * the duration parser (`durationToSeconds`) and its two derived
    predicates (`durationInMusicRange`, `durationStronglyContradicts`);
  * the classifier (`classifyVideo`);
  * the bounded decision cache (`cacheGet`, `cacheSet`) over a model of a
    JavaScript `Map` (insertion-ordered association list);
  * the per-element processing state machine (`processCandidate`), the
    scan pass (`scanNow`), the forced rescan (`rescanAll`) and the
    debounced scan scheduler (`scheduleScan`).

JavaScript built-ins are modelled on the fragment the program exercises:
strings are Lean `String`s (lists of characters), `toLowerCase` is the
ASCII lowering (which is what it does on the ASCII range), `\s` is the
four ASCII whitespace characters, and numbers are `Nat` (every number the
program computes here is a non-negative integer; JS number overflow is
out of reach of the listed behaviours).  DOM extraction, storage and
timers are external collaborators: extraction results are inputs, timer
callbacks are modelled as explicit transition functions, and the delayed
part of `hideElement` (a `setTimeout`) is represented by its immediate,
synchronous effect on the element's markers.
-/

/-! ## Constants from the source -/

def MAX_CACHE_ENTRIES : Nat := 5000

def MUSIC_MIN_SECONDS : Nat := 90

def MUSIC_MAX_SECONDS : Nat := 600

def EXTREME_SHORT : Nat := 30

def EXTREME_LONG : Nat := 30 * 60

/-! ## Character-level helpers (models of the JS built-ins used) -/

/-- Model of JS `String.prototype.toLowerCase` on the ASCII fragment:
this is exactly core `Char.toLower` (A–Z ↦ a–z, all else fixed). -/
def toLowerJS (c : Char) : Char := c.toLower

/-- Model of the regex class `\s` (the whitespace the inputs can contain:
space, tab, carriage return, newline). -/
def isWsJS (c : Char) : Bool := c.isWhitespace

/-- The character class `[a-z0-9]` of `normalizeText`'s regex. -/
def isAlnumLower (c : Char) : Bool :=
  ('a' ≤ c && c ≤ 'z') || ('0' ≤ c && c ≤ '9')

/-- The character class `[0-9:]` kept by `durationToSeconds`. -/
def keepDigitColon (c : Char) : Bool := c.isDigit || c = ':'

/-- `str.replace(/X+/g, " ")` for a character class `p`: every maximal
run of characters satisfying `p` becomes a single space.  The `Bool`
argument records whether the previous character was part of a run. -/
def collapseRunsAux (p : Char → Bool) : Bool → List Char → List Char
  | _, [] => []
  | inRun, c :: rest =>
    if p c then
      (if inRun then ([] : List Char) else [' ']) ++ collapseRunsAux p true rest
    else
      c :: collapseRunsAux p false rest

/-- `str.replace(/\s+/g, " ")`. -/
def collapseWs (l : List Char) : List Char := collapseRunsAux isWsJS false l

/-- JS `String.prototype.trim`: drop whitespace at both ends. -/
def trimWs (l : List Char) : List Char :=
  ((l.dropWhile fun c => isWsJS c).reverse.dropWhile fun c => isWsJS c).reverse

/-! ## 4) Text normalization and matching helpers -/

/-- `normalizeText` from the source: lower-case, collapse every run of
non-`[a-z0-9]` characters to one space, collapse whitespace, trim. -/
def normalizeText (text : String) : String :=
  if text = "" then ""
  else
    String.mk
      (trimWs (collapseWs
        (collapseRunsAux (fun c => !(isAlnumLower c)) false (text.data.map toLowerJS))))

/-- Contiguous-prefix test on character lists (building block of JS
`String.prototype.includes`). -/
def prefixEq : List Char → List Char → Bool
  | [], _ => true
  | _ :: _, [] => false
  | a :: as, b :: bs => a = b && prefixEq as bs

/-- JS `hay.includes(needle)`: `needle` occurs contiguously in `hay`. -/
def hasSubstring (needle : List Char) : List Char → Bool
  | [] => needle.isEmpty
  | c :: rest => prefixEq needle (c :: rest) || hasSubstring needle rest

/-- `containsToken` from the source: whole-word containment by padding
both haystack and needle with one space on each side. -/
def containsToken (normalizedText normalizedToken : String) : Bool :=
  if normalizedText = "" || normalizedToken = "" then false
  else
    hasSubstring (' ' :: normalizedToken.data ++ [' '])
      (' ' :: normalizedText.data ++ [' '])

/-- `containsAny` from the source. -/
def containsAny (normalizedText : String) (normalizedTokens : List String) : Bool :=
  normalizedTokens.any fun token => containsToken normalizedText token

/-- `normalizeList` from the source, on the array case (the settings
model carries lists; the string-splitting branch is for a malformed
settings blob and is unreachable from this model). -/
def normalizeList (listValue : List String) : List String :=
  (listValue.map normalizeText).filter fun s => s ≠ ""

/-! ## 5) Duration parsing -/

/-- Split a character list at every `':'` (JS `split(":")`). -/
def splitOnColon : List Char → List (List Char)
  | [] => [[]]
  | c :: rest =>
    match splitOnColon rest with
    | [] => []
    | p :: ps => if c = ':' then [] :: p :: ps else (c :: p) :: ps

/-- Decimal value of a list of digit characters. -/
def digitVal (l : List Char) : Nat :=
  l.foldl (fun acc c => acc * 10 + (c.toNat - 48)) 0

/-- Model of JS `parseInt(s, 10)` on the strings that reach it (they
contain only digit characters): `NaN` — here `none` — unless the string
starts with a digit, else the value of its leading digit run. -/
def parseIntJS (l : List Char) : Option Nat :=
  match l with
  | [] => none
  | c :: _ => if c.isDigit then some (digitVal (l.takeWhile Char.isDigit)) else none

/-- The right-to-left accumulation loop of `durationToSeconds`: the
rightmost segment is weighted by `mult`, each further one by another
factor 60; a non-numeric segment aborts with `none`. -/
def sumRl : List (List Char) → Nat → Option Nat
  | [], _ => some 0
  | p :: rest, mult =>
    match parseIntJS p, sumRl rest (mult * 60) with
    | some v, some s => some (v * mult + s)
    | _, _ => none

/-- `durationToSeconds` from the source. -/
def durationToSeconds (text : String) : Option Nat :=
  if text = "" then none
  else
    let cleaned := trimWs (collapseWs (text.data.map toLowerJS))
    if !(cleaned.any Char.isDigit) then none
    else
      let parts := (splitOnColon (cleaned.filter keepDigitColon)).filter fun p => !p.isEmpty
      if parts.isEmpty then none
      else sumRl parts.reverse 1

/-- `durationInMusicRange` from the source (`null`-safe: `none → false`). -/
def durationInMusicRange (seconds : Option Nat) : Bool :=
  match seconds with
  | none => false
  | some s => MUSIC_MIN_SECONDS ≤ s && s ≤ MUSIC_MAX_SECONDS

/-- `durationStronglyContradicts` from the source (`null`-safe). -/
def durationStronglyContradicts (seconds : Option Nat) : Bool :=
  match seconds with
  | none => false
  | some s => s < EXTREME_SHORT || EXTREME_LONG < s

example : durationToSeconds "1:02:03" = some 3723 := by decide
example : durationToSeconds "2:30" = some 150 := by decide
example : durationToSeconds "abc" = none := by decide
example : durationToSeconds "" = none := by decide
example : normalizeText "Live Session Highlights" = "live session highlights" := by decide

/-! ## 2) Settings and matchers -/

/-- The settings blob (defaults in the source: empty keyword lists,
`defaultPolicy = "show"`, `showBlocked = false`, `debounceMs = 60`,
`debugMode = false`). -/
structure Settings where
  strongMusicKeywords : List String
  moderateMusicKeywords : List String
  nonMusicKeywords : List String
  channelMusicTokens : List String
  defaultPolicy : String
  showBlocked : Bool
  debounceMs : Nat
  debugMode : Bool
deriving DecidableEq

/-- The compiled matcher set (`buildMatchers`'s result shape). -/
structure Matchers where
  strong : List String
  moderate : List String
  non : List String
  channel : List String
deriving DecidableEq

/-- `buildMatchers` from the source. -/
def buildMatchers (currentSettings : Settings) : Matchers where
  strong := normalizeList currentSettings.strongMusicKeywords
  moderate := normalizeList currentSettings.moderateMusicKeywords
  non := normalizeList currentSettings.nonMusicKeywords
  channel := normalizeList currentSettings.channelMusicTokens

/-! ## 6) The extracted item record -/

/-- JS `a || b` on strings (first operand if truthy, i.e. non-empty). -/
def jsOr (a b : String) : String := if a = "" then b else a

/-- The record `extractVideoData` returns.  `videoId` is `none` when no
identity was extracted; `cacheKey` is `none` when the item is not
cacheable. -/
structure VideoData where
  title : String
  href : String
  channel : String
  durationText : String
  durationSeconds : Option Nat
  videoId : Option String
  normalizedTitle : String
  cacheKey : Option String
deriving DecidableEq

/-- The derivation part of `extractVideoData` (the DOM queries that
produce `title`, `href`, `channel`, `durationText`, `videoId` are the
extraction collaborator; this computes the derived fields exactly as the
source does). -/
def extractVideoData (title href channel durationText : String)
    (videoId : Option String) : VideoData :=
  let durationSeconds := durationToSeconds durationText
  let normalizedTitle := normalizeText title
  let cacheKey :=
    if videoId.getD "" ≠ "" then some ("id:" ++ videoId.getD "")
    else if normalizedTitle ≠ "" then some ("title:" ++ normalizedTitle)
    else none
  { title, href, channel, durationText, durationSeconds, videoId,
    normalizedTitle, cacheKey }

/-! ## 7) Classification algorithm -/

/-- A classification decision: the pair `{ isMusic, reason }` the
classifier returns. -/
structure ClassResult where
  isMusic : Bool
  reason : String
deriving DecidableEq

/-- The normalized combined title-and-channel text the classifier
matches against (`normalizeText` of the template literal
`` `${data.title} ${data.channel}` ``). -/
def combinedText (data : VideoData) : String :=
  normalizeText (data.title ++ " " ++ data.channel)

/-- `classifyVideo` from the source: the ordered first-match-wins rule
cascade. -/
def classifyVideo (m : Matchers) (defaultPolicy : String) (data : VideoData) :
    ClassResult :=
  let combined := combinedText data
  let channelNormalized := normalizeText data.channel
  if containsAny combined m.strong then { isMusic := true, reason := "strong" }
  else if containsAny combined m.non then { isMusic := false, reason := "non" }
  else if containsAny combined m.moderate then
    if durationStronglyContradicts data.durationSeconds then
      { isMusic := false, reason := "moderate+duration" }
    else { isMusic := true, reason := "moderate" }
  else if durationInMusicRange data.durationSeconds &&
      containsAny channelNormalized m.channel then
    { isMusic := true, reason := "duration+channel" }
  else { isMusic := decide (defaultPolicy ≠ "hide"), reason := "default" }

/-! ## 8) Cache helpers

The in-memory decision cache is a JS `Map`, modelled as an
insertion-ordered association list: `Map.prototype.set` on a present key
updates it in place, on an absent key appends at the end;
`Map.prototype.delete` removes it; `keys().next().value` is the first
(oldest) key.  The `ts` field is `Date.now()` at the mutation, passed in
as `now` (the clock is an external collaborator). -/

/-- One cache entry: `{ isMusic, ts }`. -/
structure CacheEntry where
  isMusic : Bool
  ts : Nat
deriving DecidableEq

/-- The decision cache: association list in insertion order. -/
abbrev Cache := List (String × CacheEntry)

/-- `Map.prototype.get`. -/
def lookupEntry : Cache → String → Option CacheEntry
  | [], _ => none
  | (k, e) :: rest, key => if k = key then some e else lookupEntry rest key

/-- `Map.prototype.delete`. -/
def mapDelete : Cache → String → Cache
  | [], _ => []
  | (k, e) :: rest, key => if k = key then rest else (k, e) :: mapDelete rest key

/-- `Map.prototype.set`: update in place, else append. -/
def mapSet : Cache → String → CacheEntry → Cache
  | [], key, e => [(key, e)]
  | (k, e₀) :: rest, key, e =>
    if k = key then (k, e) :: rest else (k, e₀) :: mapSet rest key e

/-- `cacheGet` from the source: `null` on a falsy key or a miss; on a
hit, touch the entry (delete and re-insert with a fresh timestamp) and
return its decision. -/
def cacheGet (now : Nat) (cache : Cache) (key : String) : Option Bool × Cache :=
  if key = "" then (none, cache)
  else
    match lookupEntry cache key with
    | none => (none, cache)
    | some entry =>
      (some entry.isMusic,
        mapSet (mapDelete cache key) key { isMusic := entry.isMusic, ts := now })

/-- `cacheSet` from the source: unconditional overwrite, then trim the
single oldest entry if the size now exceeds `MAX_CACHE_ENTRIES`.
(`scheduleCacheSave` — coalesced persistence — is an external effect and
does not touch the in-memory map.) -/
def cacheSet (now : Nat) (cache : Cache) (key : String) (isMusic : Bool) : Cache :=
  if key = "" then cache
  else
    let cache := mapSet cache key { isMusic, ts := now }
    if MAX_CACHE_ENTRIES < cache.length then
      match cache.head? with
      | some (oldestKey, _) => mapDelete cache oldestKey
      | none => cache
    else cache

/-! ## 9–11) Element state, visibility and the scan state machine -/

/-- The per-element state the content script keeps on a DOM node: the
`dataset.mv*` attributes (a dataset field is `none` when it was never
assigned) and the visibility markers (`mv-blocked`, `mv-hidden` class
flags).  `hideElement`'s delayed `mv-hidden` phase is a timer; the
synchronous effect modelled here is the `mv-blocked` marker. -/
structure Elem where
  mvEpoch : Option String := none
  mvKey : Option String := none
  mvProcessed : Option String := none
  mvWatchId : Option String := none
  mvReason : Option String := none
  mvTitle : Option String := none
  mvId : Option String := none
  blocked : Bool := false
  hidden : Bool := false
deriving DecidableEq

/-- `hideElement`'s synchronous effect: add the `mv-blocked` marker (the
`mv-hidden` marker is added later by a timer, outside the scan pass). -/
def hideElement (el : Elem) : Elem := { el with blocked := true }

/-- `unhideElement`: remove both markers. -/
def unhideElement (el : Elem) : Elem := { el with blocked := false, hidden := false }

/-- JS `str.slice(0, n)`. -/
def sliceStr (n : Nat) (s : String) : String := String.mk (s.data.take n)

/-- The per-element key of `processCandidate`:
`data.cacheKey || data.normalizedTitle || data.title`. -/
def elementKeyOf (data : VideoData) : String :=
  jsOr (jsOr (data.cacheKey.getD "") data.normalizedTitle) data.title

/-- How `processCandidate` left a candidate: skipped by the epoch test,
skipped for lack of data, skipped as already processed, decided from a
cache hit, or freshly classified. -/
inductive Outcome where
  | skippedEpoch
  | skippedNoData
  | skippedProcessed
  | cacheHit (isMusic : Bool)
  | classified (result : ClassResult)
deriving DecidableEq

/-- `processCandidate` from the source.  `currentWatchId` is
`getCurrentWatchVideoId()` (the page's active watch identity, `none` off
watch pages); `data` is `extractVideoData(element)`'s output; the
`debugState` counters are pure diagnostics and are omitted. -/
def processCandidate (s : Settings) (m : Matchers) (scanEpoch : Nat)
    (currentWatchId : Option String) (now : Nat) (context : String)
    (data : VideoData) (el : Elem) (cache : Cache) : Elem × Cache × Outcome :=
  if el.mvEpoch = some (toString scanEpoch) then (el, cache, .skippedEpoch)
  else
    let el := { el with mvEpoch := some (toString scanEpoch) }
    if data.title = "" ∧ data.videoId.getD "" = "" then (el, cache, .skippedNoData)
    else
      let elementKey := elementKeyOf data
      let previousKey := el.mvKey.getD ""
      let cw := currentWatchId.getD ""
      let el :=
        if cw ≠ "" ∧ el.mvWatchId ≠ some cw then
          { el with mvProcessed := some "", mvKey := some "", mvWatchId := some cw }
        else el
      if context ≠ "watch-sidebar" ∧ el.mvProcessed = some "1" ∧
          previousKey = elementKey then
        (el, cache, .skippedProcessed)
      else
        let el := if elementKey ≠ "" then { el with mvKey := some (sliceStr 200 elementKey) } else el
        let el := if cw ≠ "" then { el with mvWatchId := some cw } else el
        let ck := data.cacheKey.getD ""
        let classify : Cache → Elem × Cache × Outcome := fun cache =>
          let result := classifyVideo m s.defaultPolicy data
          let el := if result.isMusic then unhideElement el else hideElement el
          let cache := if ck ≠ "" then cacheSet now cache ck result.isMusic else cache
          let el :=
            if s.debugMode then
              { el with mvReason := some result.reason,
                        mvTitle := some (sliceStr 80 data.title),
                        mvId := some (data.videoId.getD "") }
            else el
          let el := { el with mvProcessed := some "1" }
          (el, cache, .classified result)
        if ck ≠ "" then
          match cacheGet now cache ck with
          | (some cached, cache) =>
            let el := if cached then unhideElement el else hideElement el
            let el := if s.debugMode then { el with mvReason := some "cache" } else el
            let el := { el with mvProcessed := some "1" }
            (el, cache, .cacheHit cached)
          | (none, cache) => classify cache
        else classify cache

/-- One candidate of a scan pass: a DOM element, the record extraction
yields for it, and the page context it was enumerated under. -/
structure Candidate where
  el : Elem
  data : VideoData
  ctx : String
deriving DecidableEq

/-- The scan-global mutable state: the epoch counter and the decision
cache. -/
structure ScanState where
  scanEpoch : Nat
  cache : Cache
deriving DecidableEq

/-- `scanNow` from the source: bump the epoch, then process every
enumerated candidate in order (candidate enumeration itself is the
page-context collaborator; debug bookkeeping is omitted).  Also returns
each candidate's final element state and outcome. -/
def scanNow (s : Settings) (m : Matchers) (currentWatchId : Option String)
    (now : Nat) (cands : List Candidate) (st : ScanState) :
    ScanState × List (Elem × Outcome) :=
  let epoch := st.scanEpoch + 1
  let step := fun (acc : Cache × List (Elem × Outcome)) (c : Candidate) =>
    let (el, cache, o) := processCandidate s m epoch currentWatchId now c.ctx c.data c.el acc.1
    (cache, acc.2 ++ [(el, o)])
  let (cache, outs) := cands.foldl step (st.cache, [])
  ({ scanEpoch := epoch, cache }, outs)

/-- The per-element reset `rescanAll` applies before rescanning:
`mvProcessed = ""`, `mvKey = ""`, `unhideElement`. -/
def resetCandidate (c : Candidate) : Candidate :=
  { c with el := unhideElement { c.el with mvProcessed := some "", mvKey := some "" } }

/-- `rescanAll` from the source: clear every enumerated element's
processed mark and key, revert its visibility, then run a normal scan. -/
def rescanAll (s : Settings) (m : Matchers) (currentWatchId : Option String)
    (now : Nat) (cands : List Candidate) (st : ScanState) :
    ScanState × List (Elem × Outcome) :=
  scanNow s m currentWatchId now (cands.map resetCandidate) st

/-! ## The scan scheduler -/

/-- The scheduler's state: whether a debounce timer is pending
(truthiness of `scanTimer`) together with the scan-global state. -/
structure SchedState where
  scanTimer : Bool
  scan : ScanState
deriving DecidableEq

/-- `scheduleScan` from the source: a no-op while a timer is pending,
else arm the timer. -/
def scheduleScan (st : SchedState) : SchedState :=
  if st.scanTimer then st else { st with scanTimer := true }

/-- The debounce timer firing: clear `scanTimer`, then `scanNow()`. -/
def timerFire (s : Settings) (m : Matchers) (currentWatchId : Option String)
    (now : Nat) (cands : List Candidate) (st : SchedState) :
    SchedState × List (Elem × Outcome) :=
  let (scan, outs) := scanNow s m currentWatchId now cands st.scan
  ({ scanTimer := false, scan }, outs)

/-! ## Derived notions used in the statements -/

/-- Insert a sequence of (key, decision) pairs with `cacheSet`, in order. -/
def insertAllPairs (now : Nat) (kbs : List (String × Bool)) (cache : Cache) : Cache :=
  kbs.foldl (fun c kb => cacheSet now c kb.1 kb.2) cache

/-- The keys of a cache, in insertion (= recency) order. -/
def cacheKeys (cache : Cache) : List String := cache.map Prod.fst

/-- The colon-segments `durationToSeconds` parses, computed from the raw
text: keep only digits and colons, split on colon, drop empty segments. -/
def segmentsOf (text : String) : List (List Char) :=
  (splitOnColon (text.data.filter keepDigitColon)).filter fun p => !p.isEmpty

/-- A family of pairwise distinct non-empty keys, for concrete
instantiations. -/
def keyA (n : Nat) : String := String.mk (List.replicate (n + 1) 'a')

/-- A full cache of `MAX_CACHE_ENTRIES` distinct entries. -/
def bigCacheC7 : Cache :=
  (List.range MAX_CACHE_ENTRIES).map fun n => (keyA n, { isMusic := true, ts := 0 })

/-- An item record with a fresh identity `x`. -/
def dataC7 : VideoData := extractVideoData "t" "" "" "" (some "x")

/-- A fresh, never-processed candidate for that record. -/
def candC7 : Candidate := { el := {}, data := dataC7, ctx := "home" }

/-- A concrete element whose stored key is the 200-character truncation
of a 257-character computed key. -/
def elTrunc250 : Elem :=
  { mvProcessed := some "1",
    mvKey := some (sliceStr 200
      (elementKeyOf (extractVideoData (keyA 250) "" "" "" none))) }

/-! # Helper lemmas -/

/-! ## Characters -/

theorem toNat_charOfNat_of_lt {n : Nat} (h : n < 55296) : (Char.ofNat n).toNat = n := by
  have hv : n.isValidChar := Or.inl h
  simp [Char.ofNat, hv, Char.ofNatAux, Char.toNat, UInt32.toNat, BitVec.toNat_ofNatLt]

theorem isDigit_eq_toNat (c : Char) :
    c.isDigit = (decide (48 ≤ c.toNat) && decide (c.toNat ≤ 57)) := by
  simp [Char.isDigit, Char.toNat, UInt32.le_def, BitVec.le_def]
  rfl

theorem isDigit_toLowerJS (c : Char) : (toLowerJS c).isDigit = c.isDigit := by
  unfold toLowerJS Char.toLower
  by_cases h : 65 ≤ c.toNat ∧ c.toNat ≤ 90
  · rw [if_pos (by exact ⟨h.1, h.2⟩)]
    rw [isDigit_eq_toNat, isDigit_eq_toNat, toNat_charOfNat_of_lt (by omega)]
    rw [decide_eq_false (by omega : ¬ (c.toNat + 32 ≤ 57)),
        decide_eq_false (by omega : ¬ (c.toNat ≤ 57))]
    simp
  · rw [if_neg h]

theorem isWsJS_false_of_isDigit {c : Char} (h : c.isDigit = true) :
    isWsJS c = false := by
  unfold isWsJS
  cases hw : c.isWhitespace
  · rfl
  · exfalso
    unfold Char.isWhitespace at hw
    simp only [Bool.or_eq_true, decide_eq_true_eq] at hw
    rcases hw with ((h1 | h1) | h1) | h1 <;> subst h1 <;> simp at h

theorem toNat_eq_iff_eq {c d : Char} : c = d ↔ c.toNat = d.toNat := by
  constructor
  · intro h
    rw [h]
  · intro h
    apply Char.eq_of_val_eq
    apply UInt32.eq_of_toBitVec_eq
    apply BitVec.eq_of_toNat_eq
    exact h

theorem toLowerJS_eq_colon_iff (c : Char) : (toLowerJS c = ':') ↔ (c = ':') := by
  unfold toLowerJS Char.toLower
  by_cases h : 65 ≤ c.toNat ∧ c.toNat ≤ 90
  · rw [if_pos (by exact ⟨h.1, h.2⟩)]
    constructor
    · intro hc
      exfalso
      rw [toNat_eq_iff_eq, toNat_charOfNat_of_lt (by omega)] at hc
      revert hc
      show ¬ (c.toNat + 32 = (58 : Nat))
      omega
    · intro hc
      exfalso
      rw [toNat_eq_iff_eq] at hc
      revert hc
      show ¬ (c.toNat = (58 : Nat))
      omega
  · rw [if_neg h]

theorem keepDigitColon_toLowerJS (c : Char) :
    keepDigitColon (toLowerJS c) = keepDigitColon c := by
  unfold keepDigitColon
  rw [isDigit_toLowerJS]
  by_cases h : c = ':'
  · rw [decide_eq_true h, decide_eq_true ((toLowerJS_eq_colon_iff c).2 h)]
  · rw [decide_eq_false h, decide_eq_false (fun hc => h ((toLowerJS_eq_colon_iff c).1 hc))]

theorem isWsJS_false_of_keepDigitColon {c : Char} (h : keepDigitColon c = true) :
    isWsJS c = false := by
  unfold keepDigitColon at h
  rcases Bool.or_eq_true_iff.1 h with hd | hc
  · exact isWsJS_false_of_isDigit hd
  · rw [decide_eq_true_eq] at hc
    subst hc
    rfl

theorem keepDigitColon_space : keepDigitColon ' ' = false := by decide

theorem keepDigitColon_of_isDigit {c : Char} (h : c.isDigit = true) :
    keepDigitColon c = true := by
  unfold keepDigitColon
  rw [h]
  rfl

/-! ## Runs, trimming and filtering -/

theorem mem_collapseRunsAux {p : Char → Bool} {c : Char} :
    ∀ {b : Bool} {l : List Char}, c ∈ collapseRunsAux p b l → c = ' ' ∨ c ∈ l := by
  intro b l
  induction l generalizing b with
  | nil => intro h; exact absurd h (List.not_mem_nil c)
  | cons d rest ih =>
    intro h
    unfold collapseRunsAux at h
    by_cases hd : p d
    · rw [if_pos hd] at h
      rcases List.mem_append.1 h with h1 | h1
      · cases b with
        | true => exact absurd h1 (List.not_mem_nil c)
        | false =>
          left
          rw [List.mem_singleton.1 h1]
      · rcases ih h1 with h2 | h2
        · exact Or.inl h2
        · exact Or.inr (List.mem_cons_of_mem d h2)
    · rw [if_neg hd] at h
      rcases List.mem_cons.1 h with h1 | h1
      · exact Or.inr (h1 ▸ List.mem_cons_self d rest)
      · rcases ih h1 with h2 | h2
        · exact Or.inl h2
        · exact Or.inr (List.mem_cons_of_mem d h2)

theorem mem_collapseRunsAux_of_mem {p : Char → Bool} {c : Char} (hc : p c = false) :
    ∀ {b : Bool} {l : List Char}, c ∈ l → c ∈ collapseRunsAux p b l := by
  intro b l
  induction l generalizing b with
  | nil => intro h; exact absurd h (List.not_mem_nil c)
  | cons d rest ih =>
    intro h
    unfold collapseRunsAux
    by_cases hd : p d
    · rw [if_pos hd]
      apply List.mem_append_right
      rcases List.mem_cons.1 h with h1 | h1
      · exact absurd (h1 ▸ hd) (by rw [hc]; exact Bool.false_ne_true)
      · exact ih h1
    · rw [if_neg hd]
      rcases List.mem_cons.1 h with h1 | h1
      · exact h1 ▸ List.mem_cons_self d _
      · exact List.mem_cons_of_mem d (ih h1)

theorem mem_dropWhile_of_mem {p : Char → Bool} {c : Char} (hc : p c = false) :
    ∀ {l : List Char}, c ∈ l → c ∈ l.dropWhile p := by
  intro l
  induction l with
  | nil => intro h; exact absurd h (List.not_mem_nil c)
  | cons d rest ih =>
    intro h
    rw [List.dropWhile_cons]
    by_cases hd : p d
    · rw [if_pos hd]
      rcases List.mem_cons.1 h with h1 | h1
      · exact absurd (h1 ▸ hd) (by rw [hc]; exact Bool.false_ne_true)
      · exact ih h1
    · rw [if_neg hd]
      exact h

theorem mem_of_mem_dropWhile {p : Char → Bool} {c : Char} {l : List Char}
    (h : c ∈ l.dropWhile p) : c ∈ l :=
  (List.dropWhile_sublist p).subset h

theorem mem_trimWs_of_mem {c : Char} {l : List Char} (hm : c ∈ l)
    (hc : isWsJS c = false) : c ∈ trimWs l := by
  unfold trimWs
  rw [List.mem_reverse]
  apply mem_dropWhile_of_mem hc
  rw [List.mem_reverse]
  exact mem_dropWhile_of_mem hc hm

theorem mem_of_mem_trimWs {c : Char} {l : List Char} (h : c ∈ trimWs l) : c ∈ l := by
  unfold trimWs at h
  rw [List.mem_reverse] at h
  have h1 := mem_of_mem_dropWhile h
  rw [List.mem_reverse] at h1
  exact mem_of_mem_dropWhile h1

theorem filter_collapseRunsAux {p q : Char → Bool}
    (hspace : p ' ' = false) (hpq : ∀ c, p c = true → q c = false) :
    ∀ (b : Bool) (l : List Char),
      (collapseRunsAux q b l).filter p = l.filter p := by
  intro b l
  induction l generalizing b with
  | nil => rfl
  | cons d rest ih =>
    unfold collapseRunsAux
    by_cases hd : q d
    · have hpd : p d = false := by
        cases hp : p d
        · rfl
        · exact absurd hd (by rw [hpq d hp]; exact Bool.false_ne_true)
      cases b <;> simp [hd, hpd, hspace, List.filter_append, List.filter_cons, ih]
    · by_cases hp : p d <;> simp [hd, hp, List.filter_cons, ih]

theorem filter_dropWhile {p q : Char → Bool}
    (hpq : ∀ c, p c = true → q c = false) :
    ∀ l : List Char, (l.dropWhile q).filter p = l.filter p := by
  intro l
  induction l with
  | nil => rfl
  | cons d rest ih =>
    rw [List.dropWhile_cons]
    by_cases hd : q d
    · rw [if_pos hd, ih, List.filter_cons_of_neg]
      intro hp
      exact absurd hd (by rw [hpq d hp]; exact Bool.false_ne_true)
    · rw [if_neg hd]

theorem filter_trimWs {p : Char → Bool}
    (hpw : ∀ c, p c = true → isWsJS c = false) (l : List Char) :
    (trimWs l).filter p = l.filter p := by
  unfold trimWs
  rw [List.filter_reverse, filter_dropWhile hpw, List.filter_reverse,
    List.reverse_reverse, filter_dropWhile hpw]

theorem filter_map_toLowerJS {p : Char → Bool}
    (hp : ∀ c, p (toLowerJS c) = p c)
    (hfix : ∀ c, p c = true → toLowerJS c = c) :
    ∀ l : List Char, (l.map toLowerJS).filter p = l.filter p := by
  intro l
  induction l with
  | nil => rfl
  | cons d rest ih =>
    rw [List.map_cons]
    by_cases hd : p d
    · rw [List.filter_cons_of_pos (by rw [hp d]; exact hd),
        List.filter_cons_of_pos hd, ih, hfix d hd]
    · simp only [List.filter_cons, hp d, ih]
      rw [if_neg hd, if_neg hd]

/-! ## Digits surviving the cleaning pipeline -/

theorem any_isDigit_cleaned (t : String) :
    (trimWs (collapseWs (t.data.map toLowerJS))).any Char.isDigit =
      t.data.any Char.isDigit := by
  cases horig : t.data.any Char.isDigit
  · cases hcl : (trimWs (collapseWs (t.data.map toLowerJS))).any Char.isDigit
    · rfl
    · exfalso
      obtain ⟨c, hc, hcd⟩ := List.any_eq_true.1 hcl
      have hc1 : c ∈ collapseWs (t.data.map toLowerJS) := mem_of_mem_trimWs hc
      rcases mem_collapseRunsAux hc1 with hsp | hmem
      · subst hsp
        simp at hcd
      · obtain ⟨c₀, hc₀, rfl⟩ := List.mem_map.1 hmem
        have : t.data.any Char.isDigit = true :=
          List.any_eq_true.2 ⟨c₀, hc₀, (isDigit_toLowerJS c₀) ▸ hcd⟩
        rw [horig] at this
        exact Bool.false_ne_true this
  · obtain ⟨c, hc, hcd⟩ := List.any_eq_true.1 horig
    apply List.any_eq_true.2
    refine ⟨toLowerJS c, ?_, (isDigit_toLowerJS c).trans hcd⟩
    apply mem_trimWs_of_mem
    · exact mem_collapseRunsAux_of_mem
        (isWsJS_false_of_isDigit ((isDigit_toLowerJS c).trans hcd))
        (List.mem_map_of_mem toLowerJS hc)
    · exact isWsJS_false_of_isDigit ((isDigit_toLowerJS c).trans hcd)

theorem filter_cleaned_eq (t : String) :
    (trimWs (collapseWs (t.data.map toLowerJS))).filter keepDigitColon =
      t.data.filter keepDigitColon := by
  rw [filter_trimWs (fun c h => isWsJS_false_of_keepDigitColon h)]
  unfold collapseWs
  rw [filter_collapseRunsAux keepDigitColon_space
    (fun c h => isWsJS_false_of_keepDigitColon h)]
  apply filter_map_toLowerJS keepDigitColon_toLowerJS
  intro c hc
  unfold keepDigitColon at hc
  rcases Bool.or_eq_true_iff.1 hc with hd | hcol
  · unfold toLowerJS Char.toLower
    rw [isDigit_eq_toNat] at hd
    rw [if_neg]
    intro hcon
    simp only [Bool.and_eq_true, decide_eq_true_eq] at hd
    omega
  · rw [decide_eq_true_eq] at hcol
    subst hcol
    rfl

/-! ## The colon-split -/

theorem splitOnColon_ne_nil : ∀ l : List Char, splitOnColon l ≠ [] := by
  intro l
  induction l with
  | nil => exact fun h => List.cons_ne_nil _ _ h
  | cons c rest ih =>
    unfold splitOnColon
    cases hs : splitOnColon rest with
    | nil => exact absurd hs ih
    | cons p ps =>
      dsimp only
      by_cases hc : c = ':'
      · rw [if_pos hc]
        exact List.cons_ne_nil _ _
      · rw [if_neg hc]
        exact List.cons_ne_nil _ _

theorem mem_of_mem_splitOnColon :
    ∀ {l : List Char} {p : List Char} {c : Char},
      p ∈ splitOnColon l → c ∈ p → c ∈ l ∧ c ≠ ':' := by
  intro l
  induction l with
  | nil =>
    intro p c hp hc
    rw [show splitOnColon [] = [[]] from rfl, List.mem_singleton] at hp
    subst hp
    exact absurd hc (List.not_mem_nil c)
  | cons d rest ih =>
    intro p c hp hc
    unfold splitOnColon at hp
    cases hs : splitOnColon rest with
    | nil => exact absurd hs (splitOnColon_ne_nil rest)
    | cons q qs =>
      rw [hs] at hp
      dsimp only at hp
      by_cases hd : d = ':'
      · rw [if_pos hd] at hp
        rcases List.mem_cons.1 hp with h1 | h1
        · subst h1
          exact absurd hc (List.not_mem_nil c)
        · have := ih (hs ▸ h1) hc
          exact ⟨List.mem_cons_of_mem d this.1, this.2⟩
      · rw [if_neg hd] at hp
        rcases List.mem_cons.1 hp with h1 | h1
        · subst h1
          rcases List.mem_cons.1 hc with h2 | h2
          · subst h2
            exact ⟨List.mem_cons_self c rest, hd⟩
          · have := ih (hs ▸ List.mem_cons_self q qs) h2
            exact ⟨List.mem_cons_of_mem d this.1, this.2⟩
        · have := ih (hs ▸ List.mem_cons_of_mem q h1) hc
          exact ⟨List.mem_cons_of_mem d this.1, this.2⟩

theorem exists_part_of_mem {c : Char} :
    ∀ {l : List Char}, c ∈ l → c ≠ ':' → ∃ p ∈ splitOnColon l, c ∈ p := by
  intro l
  induction l with
  | nil => intro h; exact absurd h (List.not_mem_nil c)
  | cons d rest ih =>
    intro h hc
    unfold splitOnColon
    cases hs : splitOnColon rest with
    | nil => exact absurd hs (splitOnColon_ne_nil rest)
    | cons q qs =>
      dsimp only
      rcases List.mem_cons.1 h with h1 | h1
      · subst h1
        rw [if_neg hc]
        exact ⟨c :: q, List.mem_cons_self _ _, List.mem_cons_self _ _⟩
      · obtain ⟨p, hp, hcp⟩ := ih h1 hc
        rw [hs] at hp
        by_cases hd : d = ':'
        · rw [if_pos hd]
          exact ⟨p, List.mem_cons_of_mem _ hp, hcp⟩
        · rw [if_neg hd]
          rcases List.mem_cons.1 hp with h2 | h2
          · subst h2
            exact ⟨d :: p, List.mem_cons_self _ _, List.mem_cons_of_mem d hcp⟩
          · exact ⟨p, List.mem_cons_of_mem _ h2, hcp⟩

/-! ## Parsing the segments -/

theorem takeWhile_all {p : Char → Bool} :
    ∀ {l : List Char}, (∀ c ∈ l, p c = true) → l.takeWhile p = l := by
  intro l
  induction l with
  | nil => intro _; rfl
  | cons d rest ih =>
    intro h
    rw [List.takeWhile_cons, if_pos (h d (List.mem_cons_self d rest)), ih]
    intro c hc
    exact h c (List.mem_cons_of_mem d hc)

theorem parseIntJS_of_digits {p : List Char} (hne : p ≠ [])
    (hd : ∀ c ∈ p, c.isDigit = true) : parseIntJS p = some (digitVal p) := by
  cases p with
  | nil => exact absurd rfl hne
  | cons c rest =>
    unfold parseIntJS
    dsimp only
    rw [if_pos (hd c (List.mem_cons_self c rest)), takeWhile_all hd]

/-- The right-to-left loop, on all-digit segments, computes `mult` times
the base-60 positional value of the reversed segment list. -/
theorem sumRl_eq {l : List (List Char)}
    (h : ∀ p ∈ l, p ≠ [] ∧ ∀ c ∈ p, c.isDigit = true) :
    ∀ mult : Nat,
      sumRl l mult =
        some (mult * (l.map digitVal).foldr (fun v acc => v + 60 * acc) 0) := by
  induction l with
  | nil => intro mult; simp [sumRl]
  | cons p rest ih =>
    intro mult
    have hp := h p (List.mem_cons_self p rest)
    have hrest := fun q hq => h q (List.mem_cons_of_mem p hq)
    unfold sumRl
    rw [parseIntJS_of_digits hp.1 hp.2, ih hrest (mult * 60)]
    simp only [List.map_cons, List.foldr_cons]
    congr 1
    ring

/-! ## `durationToSeconds`: full characterization -/

theorem durationToSeconds_none_of_no_digit {t : String}
    (h : t.data.any Char.isDigit = false) : durationToSeconds t = none := by
  unfold durationToSeconds
  by_cases ht : t = ""
  · rw [if_pos ht]
  · rw [if_neg ht]
    simp only [any_isDigit_cleaned, h]
    rfl

theorem segments_digits {t : String} :
    ∀ p ∈ segmentsOf t, p ≠ [] ∧ ∀ c ∈ p, c.isDigit = true := by
  intro p hp
  unfold segmentsOf at hp
  obtain ⟨hp1, hp2⟩ := List.mem_filter.1 hp
  constructor
  · intro hnil
    subst hnil
    simp at hp2
  · intro c hc
    obtain ⟨hcf, hcol⟩ := mem_of_mem_splitOnColon hp1 hc
    have hkeep := (List.mem_filter.1 hcf).2
    unfold keepDigitColon at hkeep
    rcases Bool.or_eq_true_iff.1 hkeep with hd | hcol2
    · exact hd
    · rw [decide_eq_true_eq] at hcol2
      exact absurd hcol2 hcol

theorem durationToSeconds_of_digit {t : String}
    (h : t.data.any Char.isDigit = true) :
    durationToSeconds t =
      some (((segmentsOf t).reverse.map digitVal).foldr
        (fun v acc => v + 60 * acc) 0) := by
  obtain ⟨d, hd, hdd⟩ := List.any_eq_true.1 h
  have ht : t ≠ "" := by
    intro ht
    subst ht
    exact absurd hd (List.not_mem_nil d)
  unfold durationToSeconds
  rw [if_neg ht]
  simp only [any_isDigit_cleaned, h, Bool.not_true]
  rw [if_neg (by exact fun hcon => Bool.false_ne_true hcon)]
  have hparts : ((splitOnColon ((trimWs (collapseWs (t.data.map toLowerJS))).filter
      keepDigitColon)).filter fun p => !p.isEmpty) = segmentsOf t := by
    rw [filter_cleaned_eq]
    rfl
  rw [hparts]
  have hne : (segmentsOf t).isEmpty = false := by
    have hdk : d ∈ t.data.filter keepDigitColon :=
      List.mem_filter.2 ⟨hd, keepDigitColon_of_isDigit hdd⟩
    have hdcol : d ≠ ':' := by
      intro hcon
      subst hcon
      simp at hdd
    obtain ⟨p, hp, hdp⟩ := exists_part_of_mem hdk hdcol
    have hpne : p.isEmpty = false := by
      cases p with
      | nil => exact absurd hdp (List.not_mem_nil d)
      | cons a b => rfl
    have : p ∈ segmentsOf t := by
      unfold segmentsOf
      exact List.mem_filter.2 ⟨hp, by rw [hpne]; rfl⟩
    cases hse : (segmentsOf t).isEmpty
    · rfl
    · rw [List.isEmpty_iff] at hse
      rw [hse] at this
      exact absurd this (List.not_mem_nil p)
  rw [if_neg (by rw [hne]; exact Bool.false_ne_true)]
  rw [sumRl_eq (fun p hp => segments_digits p (List.mem_reverse.1 hp)) 1]
  rw [Nat.one_mul]

theorem durationToSeconds_isSome_of_digit {t : String}
    (h : t.data.any Char.isDigit = true) :
    ∃ n : Nat, durationToSeconds t = some n :=
  ⟨_, durationToSeconds_of_digit h⟩

/-! ## Cache map primitives -/

theorem lookupEntry_eq_none_iff {c : Cache} {k : String} :
    lookupEntry c k = none ↔ k ∉ cacheKeys c := by
  induction c with
  | nil => simp [lookupEntry, cacheKeys]
  | cons kv rest ih =>
    obtain ⟨k₀, e₀⟩ := kv
    unfold lookupEntry
    by_cases h : k₀ = k
    · subst h
      simp [cacheKeys]
    · rw [if_neg h, ih]
      unfold cacheKeys
      simp only [List.map_cons, List.mem_cons]
      constructor
      · intro hn hc
        rcases hc with hc | hc
        · exact h hc.symm
        · exact hn hc
      · intro hn hc
        exact hn (Or.inr hc)

theorem lookup_mapSet_self (c : Cache) (k : String) (e : CacheEntry) :
    lookupEntry (mapSet c k e) k = some e := by
  induction c with
  | nil => simp [mapSet, lookupEntry]
  | cons kv rest ih =>
    obtain ⟨k₀, e₀⟩ := kv
    unfold mapSet
    by_cases h : k₀ = k
    · rw [if_pos h]
      unfold lookupEntry
      rw [if_pos h]
    · rw [if_neg h]
      unfold lookupEntry
      rw [if_neg h]
      exact ih

theorem lookup_mapSet_ne {c : Cache} {k k' : String} (e : CacheEntry) (h : k' ≠ k) :
    lookupEntry (mapSet c k e) k' = lookupEntry c k' := by
  induction c with
  | nil =>
    simp only [mapSet, lookupEntry]
    rw [if_neg (fun hc => h hc.symm)]
  | cons kv rest ih =>
    obtain ⟨k₀, e₀⟩ := kv
    unfold mapSet
    by_cases h₀ : k₀ = k
    · rw [if_pos h₀]
      unfold lookupEntry
      rw [if_neg (fun hc => h (hc.symm.trans h₀)),
        if_neg (fun hc => h (hc.symm.trans h₀))]
    · rw [if_neg h₀]
      unfold lookupEntry
      by_cases h₁ : k₀ = k'
      · rw [if_pos h₁, if_pos h₁]
      · rw [if_neg h₁, if_neg h₁]
        exact ih

theorem mapSet_of_not_mem {c : Cache} {k : String} (e : CacheEntry)
    (h : k ∉ cacheKeys c) : mapSet c k e = c ++ [(k, e)] := by
  induction c with
  | nil => rfl
  | cons kv rest ih =>
    obtain ⟨k₀, e₀⟩ := kv
    unfold cacheKeys at h
    simp only [List.map_cons, List.mem_cons] at h
    unfold mapSet
    rw [if_neg (fun hc => h (Or.inl hc.symm))]
    rw [ih (fun hc => h (Or.inr hc))]
    rfl

theorem length_mapSet_of_mem {c : Cache} {k : String} (e : CacheEntry)
    (h : k ∈ cacheKeys c) : (mapSet c k e).length = c.length := by
  induction c with
  | nil => exact absurd h (List.not_mem_nil k)
  | cons kv rest ih =>
    obtain ⟨k₀, e₀⟩ := kv
    unfold mapSet
    by_cases h₀ : k₀ = k
    · rw [if_pos h₀]
      rfl
    · rw [if_neg h₀]
      unfold cacheKeys at h
      simp only [List.map_cons, List.mem_cons] at h
      rcases h with h | h
      · exact absurd h.symm h₀
      · simp only [List.length_cons, ih h]

theorem length_mapSet_le (c : Cache) (k : String) (e : CacheEntry) :
    (mapSet c k e).length ≤ c.length + 1 := by
  by_cases h : k ∈ cacheKeys c
  · rw [length_mapSet_of_mem e h]
    exact Nat.le_succ _
  · rw [mapSet_of_not_mem e h, List.length_append]
    exact Nat.le_refl _

theorem lookup_mapDelete_ne {c : Cache} {k k' : String} (h : k' ≠ k) :
    lookupEntry (mapDelete c k) k' = lookupEntry c k' := by
  induction c with
  | nil => rfl
  | cons kv rest ih =>
    obtain ⟨k₀, e₀⟩ := kv
    unfold mapDelete
    by_cases h₀ : k₀ = k
    · rw [if_pos h₀]
      unfold lookupEntry
      rw [if_neg (fun hc => h (hc.symm.trans h₀))]
      cases rest <;> rfl
    · rw [if_neg h₀]
      unfold lookupEntry
      by_cases h₁ : k₀ = k'
      · rw [if_pos h₁, if_pos h₁]
      · rw [if_neg h₁, if_neg h₁]
        exact ih

theorem keys_mapDelete_subset {c : Cache} {k : String} :
    ∀ {k' : String}, k' ∈ cacheKeys (mapDelete c k) → k' ∈ cacheKeys c := by
  induction c with
  | nil => intro k' h; exact absurd h (List.not_mem_nil k')
  | cons kv rest ih =>
    obtain ⟨k₀, e₀⟩ := kv
    intro k' h
    unfold mapDelete at h
    by_cases h₀ : k₀ = k
    · rw [if_pos h₀] at h
      exact List.mem_cons_of_mem k₀ h
    · rw [if_neg h₀] at h
      unfold cacheKeys at h
      simp only [List.map_cons, List.mem_cons] at h
      rcases h with h | h
      · exact h ▸ List.mem_cons_self k₀ _
      · exact List.mem_cons_of_mem k₀ (ih h)

theorem not_mem_keys_mapDelete {c : Cache} {k : String}
    (hnd : (cacheKeys c).Nodup) : k ∉ cacheKeys (mapDelete c k) := by
  induction c with
  | nil => exact List.not_mem_nil k
  | cons kv rest ih =>
    obtain ⟨k₀, e₀⟩ := kv
    unfold cacheKeys at hnd
    simp only [List.map_cons, List.nodup_cons] at hnd
    unfold mapDelete
    by_cases h₀ : k₀ = k
    · rw [if_pos h₀]
      subst h₀
      exact hnd.1
    · rw [if_neg h₀]
      unfold cacheKeys
      simp only [List.map_cons, List.mem_cons]
      intro h
      rcases h with h | h
      · exact h₀ h.symm
      · exact ih hnd.2 h

theorem lookupEntry_cons (k₀ : String) (e₀ : CacheEntry) (t : Cache) (k : String) :
    lookupEntry ((k₀, e₀) :: t) k = if k₀ = k then some e₀ else lookupEntry t k := rfl

theorem mapDelete_cons (k₀ : String) (e₀ : CacheEntry) (t : Cache) (k : String) :
    mapDelete ((k₀, e₀) :: t) k =
      if k₀ = k then t else (k₀, e₀) :: mapDelete t k := rfl

theorem lookup_append_right_of_not_mem {c₁ : Cache} {k : String} (c₂ : Cache)
    (h : k ∉ cacheKeys c₁) : lookupEntry (c₁ ++ c₂) k = lookupEntry c₂ k := by
  induction c₁ with
  | nil => rfl
  | cons kv rest ih =>
    obtain ⟨k₀, e₀⟩ := kv
    unfold cacheKeys at h
    simp only [List.map_cons, List.mem_cons] at h
    rw [List.cons_append, lookupEntry_cons, if_neg (fun hc => h (Or.inl hc.symm))]
    exact ih (fun hc => h (Or.inr hc))

theorem lookup_cacheSet_self {c : Cache} {k : String} (b : Bool) (now : Nat)
    (hk : k ≠ "") (hlen : c.length ≤ MAX_CACHE_ENTRIES) :
    lookupEntry (cacheSet now c k b) k = some { isMusic := b, ts := now } := by
  unfold cacheSet
  rw [if_neg hk]
  by_cases hmem : k ∈ cacheKeys c
  · rw [if_neg (by rw [length_mapSet_of_mem _ hmem]; omega)]
    exact lookup_mapSet_self c k _
  · rw [mapSet_of_not_mem _ hmem]
    by_cases hover :
        MAX_CACHE_ENTRIES <
          (c ++ [(k, ({ isMusic := b, ts := now } : CacheEntry))]).length
    · rw [if_pos hover]
      cases c with
      | nil =>
        exfalso
        simp only [List.nil_append, List.length_singleton] at hover
        exact absurd hover (by decide)
      | cons kv rest =>
        obtain ⟨k₀, e₀⟩ := kv
        unfold cacheKeys at hmem
        simp only [List.map_cons, List.mem_cons] at hmem
        rw [List.cons_append]
        dsimp only [List.head?]
        rw [mapDelete_cons, if_pos rfl]
        rw [lookup_append_right_of_not_mem _ (fun hc => hmem (Or.inr hc))]
        rw [lookupEntry_cons, if_pos rfl]
    · rw [if_neg hover]
      rw [lookup_append_right_of_not_mem _ hmem]
      rw [lookupEntry_cons, if_pos rfl]

/-! # Claim theorems -/

theorem keys_mapSet_of_mem {c : Cache} {k : String} (e : CacheEntry)
    (h : k ∈ cacheKeys c) : cacheKeys (mapSet c k e) = cacheKeys c := by
  induction c with
  | nil => exact absurd h (List.not_mem_nil k)
  | cons kv rest ih =>
    obtain ⟨k₀, e₀⟩ := kv
    unfold mapSet
    by_cases h₀ : k₀ = k
    · rw [if_pos h₀]
      rfl
    · rw [if_neg h₀]
      unfold cacheKeys at h ⊢
      simp only [List.map_cons, List.mem_cons] at h ⊢
      rcases h with h | h
      · exact absurd h.symm h₀
      · rw [show List.map Prod.fst (mapSet rest k e) = cacheKeys (mapSet rest k e) from rfl,
          ih h]
        rfl

theorem length_cacheSet_le {c : Cache} (now : Nat) (k : String) (b : Bool)
    (hlen : c.length ≤ MAX_CACHE_ENTRIES) :
    (cacheSet now c k b).length ≤ MAX_CACHE_ENTRIES := by
  unfold cacheSet
  by_cases hk : k = ""
  · rw [if_pos hk]
    exact hlen
  · rw [if_neg hk]
    have hle := length_mapSet_le c k { isMusic := b, ts := now }
    by_cases hover :
        MAX_CACHE_ENTRIES < (mapSet c k { isMusic := b, ts := now }).length
    · rw [if_pos hover]
      cases hm : mapSet c k { isMusic := b, ts := now } with
      | nil =>
        rw [hm] at hover
        exact absurd hover (by decide)
      | cons kv t =>
        obtain ⟨k₁, e₁⟩ := kv
        rw [hm] at hle hover
        dsimp only [List.head?]
        rw [mapDelete_cons, if_pos rfl]
        simp only [List.length_cons] at hle
        omega
    · rw [if_neg hover]
      omega

theorem cacheGet_refresh {c : Cache} {k : String} {e : CacheEntry} (now : Nat)
    (hnd : (cacheKeys c).Nodup) (hk : k ≠ "") (hl : lookupEntry c k = some e) :
    (cacheGet now c k).2 =
      mapDelete c k ++ [(k, { isMusic := e.isMusic, ts := now })] := by
  unfold cacheGet
  rw [if_neg hk, hl]
  dsimp only
  exact mapSet_of_not_mem _ (not_mem_keys_mapDelete hnd)

theorem length_mapDelete_of_mem {c : Cache} {k : String}
    (h : k ∈ cacheKeys c) : (mapDelete c k).length = c.length - 1 := by
  induction c with
  | nil => exact absurd h (List.not_mem_nil k)
  | cons kv rest ih =>
    obtain ⟨k₀, e₀⟩ := kv
    rw [mapDelete_cons]
    by_cases h₀ : k₀ = k
    · rw [if_pos h₀]
      rfl
    · rw [if_neg h₀]
      unfold cacheKeys at h
      simp only [List.map_cons, List.mem_cons] at h
      rcases h with h | h
      · exact absurd h.symm h₀
      · have hmem : 1 ≤ rest.length := by
          cases rest with
          | nil => exact absurd h (by simp [cacheKeys])
          | cons x t => simp
        simp only [List.length_cons, ih h]
        omega

theorem mem_keys_of_lookup_some {c : Cache} {k : String} {e : CacheEntry}
    (h : lookupEntry c k = some e) : k ∈ cacheKeys c := by
  cases hm : lookupEntry c k with
  | none => rw [hm] at h; exact absurd h (by simp)
  | some e' =>
    by_cases hmem : k ∈ cacheKeys c
    · exact hmem
    · rw [lookupEntry_eq_none_iff.2 hmem] at hm
      exact absurd hm (by simp)

theorem length_cacheGet (now : Nat) (c : Cache) (k : String)
    (hnd : (cacheKeys c).Nodup) : (cacheGet now c k).2.length = c.length := by
  unfold cacheGet
  by_cases hk : k = ""
  · rw [if_pos hk]
  · rw [if_neg hk]
    cases hl : lookupEntry c k with
    | none => rfl
    | some e =>
      dsimp only
      rw [mapSet_of_not_mem _ (not_mem_keys_mapDelete hnd), List.length_append,
        length_mapDelete_of_mem (mem_keys_of_lookup_some hl)]
      have : 1 ≤ c.length := by
        cases c with
        | nil => exact absurd (mem_keys_of_lookup_some hl) (by simp [cacheKeys])
        | cons x t => simp
      simp only [List.length_singleton]
      omega

theorem insertAllPairs_cons (now : Nat) (kb : String × Bool)
    (rest : List (String × Bool)) (c : Cache) :
    insertAllPairs now (kb :: rest) c =
      insertAllPairs now rest (cacheSet now c kb.1 kb.2) := rfl

/-- Inserting fresh, pairwise distinct, non-empty keys within the size
bound is exactly appending them in order. -/
theorem insertAllPairs_fresh :
    ∀ (kbs : List (String × Bool)) (c : Cache) (now : Nat),
      (∀ kb ∈ kbs, kb.1 ≠ "") →
      (∀ kb ∈ kbs, kb.1 ∉ cacheKeys c) →
      (kbs.map Prod.fst).Nodup →
      c.length + kbs.length ≤ MAX_CACHE_ENTRIES →
      insertAllPairs now kbs c =
        c ++ kbs.map fun kb => (kb.1, { isMusic := kb.2, ts := now }) := by
  intro kbs
  induction kbs with
  | nil =>
    intro c now _ _ _ _
    simp [insertAllPairs]
  | cons kb rest ih =>
    intro c now hne hfresh hnd hlen
    rw [insertAllPairs_cons]
    have hkb : kb.1 ≠ "" := hne kb (List.mem_cons_self kb rest)
    have hkbf : kb.1 ∉ cacheKeys c := hfresh kb (List.mem_cons_self kb rest)
    have hset : cacheSet now c kb.1 kb.2 =
        c ++ [(kb.1, { isMusic := kb.2, ts := now })] := by
      unfold cacheSet
      rw [if_neg hkb, mapSet_of_not_mem _ hkbf]
      rw [if_neg (by
        rw [List.length_append, List.length_singleton]
        simp only [List.length_cons] at hlen
        omega)]
    rw [hset]
    have hA : ∀ x ∈ rest, x.1 ≠ "" := fun x hx => hne x (List.mem_cons_of_mem kb hx)
    have hB : ∀ x ∈ rest,
        x.1 ∉ cacheKeys (c ++ [(kb.1, ({ isMusic := kb.2, ts := now } : CacheEntry))]) := by
      intro x hx
      unfold cacheKeys
      rw [List.map_append, List.mem_append]
      intro hcon
      rcases hcon with hcon | hcon
      · exact hfresh x (List.mem_cons_of_mem kb hx) hcon
      · simp only [List.map_cons, List.map_nil, List.mem_singleton] at hcon
        simp only [List.map_cons, List.nodup_cons] at hnd
        exact hnd.1 (hcon ▸ List.mem_map_of_mem Prod.fst hx)
    have hC : (rest.map Prod.fst).Nodup := by
      simp only [List.map_cons, List.nodup_cons] at hnd
      exact hnd.2
    have hD : (c ++ [(kb.1, ({ isMusic := kb.2, ts := now } : CacheEntry))]).length +
        rest.length ≤ MAX_CACHE_ENTRIES := by
      rw [List.length_append, List.length_singleton]
      simp only [List.length_cons] at hlen
      omega
    rw [ih _ now hA hB hC hD, List.append_assoc]
    rfl

theorem cacheKeys_map_entry (now : Nat) (L : List (String × Bool)) :
    cacheKeys (L.map fun kb => (kb.1, { isMusic := kb.2, ts := now })) =
      L.map Prod.fst := by
  unfold cacheKeys
  rw [List.map_map]
  rfl

/-- Claim C3: the cache holds at most `MAX_CACHE_ENTRIES` entries after
every operation (a `put` within the bound stays within it, a `get`
preserves the size); a read hit refreshes the entry to the
most-recent (last) position; and inserting `MAX_CACHE_ENTRIES + 1`
distinct keys into an empty cache leaves exactly `MAX_CACHE_ENTRIES`
entries, the very first (least-recently-touched) key being the evicted
one. -/
theorem C3_cache_bounded_lru :
    (∀ (now : Nat) (c : Cache) (k : String) (b : Bool),
      c.length ≤ MAX_CACHE_ENTRIES →
      (cacheSet now c k b).length ≤ MAX_CACHE_ENTRIES)
    ∧ (∀ (now : Nat) (c : Cache) (k : String), (cacheKeys c).Nodup →
        (cacheGet now c k).2.length = c.length)
    ∧ (∀ (now : Nat) (c : Cache) (k : String) (e : CacheEntry),
        (cacheKeys c).Nodup → k ≠ "" → lookupEntry c k = some e →
        (cacheGet now c k).2 =
          mapDelete c k ++ [(k, { isMusic := e.isMusic, ts := now })])
    ∧ (∀ (now : Nat) (kbs : List (String × Bool)),
        (kbs.map Prod.fst).Nodup →
        (∀ kb ∈ kbs, kb.1 ≠ "") →
        kbs.length = MAX_CACHE_ENTRIES + 1 →
        (insertAllPairs now kbs []).length = MAX_CACHE_ENTRIES ∧
          ∀ k₀ b₀, kbs.head? = some (k₀, b₀) →
            k₀ ∉ cacheKeys (insertAllPairs now kbs [])) := by
  refine ⟨?_, ?_, ?_, ?_⟩
  · exact fun now c k b h => length_cacheSet_le now k b h
  · exact fun now c k hnd => length_cacheGet now c k hnd
  · exact fun now c k e hnd hk hl => cacheGet_refresh now hnd hk hl
  · intro now kbs hnd hne hlen
    cases kbs with
    | nil =>
      simp only [List.length_nil] at hlen
      exact absurd hlen (by decide)
    | cons kb₀ tl =>
      have htl : tl ≠ [] := by
        intro h
        rw [h] at hlen
        simp only [List.length_cons, List.length_nil] at hlen
        exact absurd hlen (by decide)
      have htlen : tl.length = MAX_CACHE_ENTRIES := by
        simp only [List.length_cons] at hlen
        omega
      obtain ⟨kl, hkl⟩ : ∃ kl, (kb₀ :: tl).getLast (List.cons_ne_nil kb₀ tl) = kl :=
        ⟨_, rfl⟩
      have hklmem : kl ∈ kb₀ :: tl := hkl ▸ List.getLast_mem (List.cons_ne_nil kb₀ tl)
      have hkl1 : kl.1 ∈ tl.map Prod.fst := by
        rw [← hkl, List.getLast_cons htl]
        exact List.mem_map_of_mem Prod.fst (List.getLast_mem htl)
      have hsplit : (kb₀ :: tl.dropLast) ++ [kl] = kb₀ :: tl := by
        rw [← hkl, ← List.dropLast_cons_of_ne_nil htl]
        exact List.dropLast_concat_getLast (List.cons_ne_nil kb₀ tl)
      have hfold : insertAllPairs now (kb₀ :: tl) [] =
          cacheSet now (insertAllPairs now (kb₀ :: tl.dropLast) []) kl.1 kl.2 := by
        unfold insertAllPairs
        conv_lhs => rw [← hsplit]
        rw [List.foldl_append]
        rfl
      have hLsub : List.Sublist (kb₀ :: tl.dropLast) (kb₀ :: tl) :=
        List.Sublist.cons₂ kb₀ (List.dropLast_sublist tl)
      have hLnd : ((kb₀ :: tl.dropLast).map Prod.fst).Nodup :=
        List.Nodup.sublist (List.Sublist.map Prod.fst hLsub) hnd
      have hLlen : (kb₀ :: tl.dropLast).length = MAX_CACHE_ENTRIES := by
        simp only [List.length_cons, List.length_dropLast, htlen]
        decide
      have hc₁ : insertAllPairs now (kb₀ :: tl.dropLast) [] =
          (kb₀ :: tl.dropLast).map fun kb =>
            (kb.1, { isMusic := kb.2, ts := now }) := by
        apply insertAllPairs_fresh
        · exact fun x hx => hne x (hLsub.subset hx)
        · intro x _
          exact List.not_mem_nil x.1
        · exact hLnd
        · rw [hLlen]
          simp
      have hnd' : kb₀.1 ∉ tl.map Prod.fst ∧ (tl.map Prod.fst).Nodup := by
        simpa [List.nodup_cons] using hnd
      have htail : tl.dropLast.map Prod.fst ++ [kl.1] = tl.map Prod.fst := by
        have hmapped := congrArg (List.map Prod.fst) hsplit
        simp only [List.map_append, List.map_cons, List.map_nil] at hmapped
        injection hmapped with h1 h2
        try exact h2
      have hklnotdrop : kl.1 ∉ tl.dropLast.map Prod.fst := by
        intro hcon
        have hnd2 := hnd'.2
        rw [← htail] at hnd2
        exact (List.nodup_append.1 hnd2).2.2 hcon (List.mem_singleton.2 rfl)
      have hklfresh :
          kl.1 ∉ cacheKeys (insertAllPairs now (kb₀ :: tl.dropLast) []) := by
        rw [hc₁, cacheKeys_map_entry]
        intro hcon
        simp only [List.map_cons, List.mem_cons] at hcon
        rcases hcon with hcon | hcon
        · exact hnd'.1 (hcon ▸ hkl1)
        · exact hklnotdrop hcon
      have hc₁len : (insertAllPairs now (kb₀ :: tl.dropLast) []).length =
          MAX_CACHE_ENTRIES := by
        rw [hc₁, List.length_map, hLlen]
      have hklne : kl.1 ≠ "" := hne kl hklmem
      have hset : cacheSet now (insertAllPairs now (kb₀ :: tl.dropLast) []) kl.1 kl.2 =
          tl.dropLast.map (fun kb => (kb.1, { isMusic := kb.2, ts := now })) ++
            [(kl.1, { isMusic := kl.2, ts := now })] := by
        unfold cacheSet
        rw [if_neg hklne, mapSet_of_not_mem _ hklfresh]
        rw [if_pos (by
          rw [List.length_append, List.length_singleton, hc₁len]
          omega)]
        rw [hc₁]
        rw [List.map_cons, List.cons_append]
        dsimp only [List.head?]
        rw [mapDelete_cons, if_pos rfl]
      rw [hfold, hset]
      constructor
      · rw [List.length_append, List.length_singleton, List.length_map,
          List.length_dropLast, htlen]
        decide
      · intro k₀ b₀ hhead
        have hk₀ : k₀ = kb₀.1 := by
          simp only [List.head?_cons, Option.some.injEq] at hhead
          exact (congrArg Prod.fst hhead).symm
        subst hk₀
        unfold cacheKeys
        rw [List.map_append, List.mem_append]
        intro hcon
        rcases hcon with hcon | hcon
        · rw [show List.map Prod.fst
              (tl.dropLast.map fun kb =>
                ((kb.1, { isMusic := kb.2, ts := now }) : String × CacheEntry)) =
              cacheKeys (tl.dropLast.map fun kb =>
                (kb.1, { isMusic := kb.2, ts := now })) from rfl,
            cacheKeys_map_entry, List.map_dropLast] at hcon
          exact hnd'.1 ((List.dropLast_sublist (tl.map Prod.fst)).subset hcon)
        · simp only [List.map_cons, List.map_nil, List.mem_singleton] at hcon
          exact hnd'.1 (hcon ▸ hkl1)

theorem keyA_ne_empty (n : Nat) : keyA n ≠ "" := by
  intro h
  have hd : List.replicate (n + 1) 'a' = ([] : List Char) := congrArg String.data h
  have hlen := congrArg List.length hd
  simp only [List.length_replicate, List.length_nil] at hlen
  exact absurd hlen (by omega)

theorem keyA_injective : Function.Injective keyA := by
  intro a b h
  have hd : List.replicate (a + 1) 'a' = List.replicate (b + 1) 'a' :=
    congrArg String.data h
  have hlen := congrArg List.length hd
  simp only [List.length_replicate] at hlen
  omega

/-- Witness for C3: concrete caches, and the 5001-key family
`keyA 0, …, keyA 5000` overflowing an empty cache. -/
theorem C3_cache_bounded_lru_witness :
    (([] : Cache).length ≤ MAX_CACHE_ENTRIES ∧
      (cacheSet 0 [] "k" true).length ≤ MAX_CACHE_ENTRIES)
    ∧ ((cacheKeys [("k", { isMusic := true, ts := 0 })]).Nodup ∧
        (cacheGet 1 [("k", { isMusic := true, ts := 0 })] "k").2.length =
          ([("k", ({ isMusic := true, ts := 0 } : CacheEntry))] : Cache).length)
    ∧ (cacheGet 1 [("k", { isMusic := true, ts := 0 })] "k").2 =
        mapDelete [("k", { isMusic := true, ts := 0 })] "k" ++
          [("k", { isMusic := true, ts := 1 })]
    ∧ ((insertAllPairs 0
          ((List.range (MAX_CACHE_ENTRIES + 1)).map fun n => (keyA n, true))
          []).length = MAX_CACHE_ENTRIES ∧
        ∀ k₀ b₀,
          ((List.range (MAX_CACHE_ENTRIES + 1)).map
            fun n => (keyA n, true)).head? = some (k₀, b₀) →
          k₀ ∉ cacheKeys (insertAllPairs 0
            ((List.range (MAX_CACHE_ENTRIES + 1)).map fun n => (keyA n, true)) [])) := by
  have hnd : (((List.range (MAX_CACHE_ENTRIES + 1)).map
      fun n => (keyA n, true)).map Prod.fst).Nodup := by
    rw [List.map_map]
    exact List.Nodup.map keyA_injective (List.nodup_range _)
  have hne : ∀ kb ∈ (List.range (MAX_CACHE_ENTRIES + 1)).map
      fun n => (keyA n, true), kb.1 ≠ "" := by
    intro kb hkb
    obtain ⟨n, _, rfl⟩ := List.mem_map.1 hkb
    exact keyA_ne_empty n
  have hlen : ((List.range (MAX_CACHE_ENTRIES + 1)).map
      fun n => (keyA n, true)).length = MAX_CACHE_ENTRIES + 1 := by
    rw [List.length_map, List.length_range]
  refine ⟨⟨by decide, C3_cache_bounded_lru.1 0 [] "k" true (by decide)⟩,
    ⟨by decide, C3_cache_bounded_lru.2.1 1 [("k", { isMusic := true, ts := 0 })] "k"
      (by decide)⟩,
    ?_, C3_cache_bounded_lru.2.2.2 0 _ hnd hne hlen⟩
  exact C3_cache_bounded_lru.2.2.1 1 [("k", { isMusic := true, ts := 0 })] "k"
    { isMusic := true, ts := 0 } (by decide) (by decide) (by decide)

theorem scheduleScan_idem (st : SchedState) :
    scheduleScan (scheduleScan st) = scheduleScan st := by
  unfold scheduleScan
  by_cases h : st.scanTimer
  · rw [if_pos h, if_pos h]
  · rw [if_neg h]
    dsimp only
    rw [if_pos rfl]

/-- Claim C8: the scheduler is single-flight — a schedule request while
the timer is pending is a no-op, any non-empty burst of change signals
collapses to a single schedule, scheduling never touches the epoch, and
each executed scan (timer firing) increments the epoch by exactly one
(hence the epoch is strictly monotone across executed scans). -/
theorem C8_scheduler_single_flight :
    (∀ st : SchedState, st.scanTimer = true → scheduleScan st = st)
    ∧ (∀ (st : SchedState) (sigs : List Unit), sigs ≠ [] →
        sigs.foldl (fun t _ => scheduleScan t) st = scheduleScan st)
    ∧ (∀ st : SchedState, (scheduleScan st).scan.scanEpoch = st.scan.scanEpoch)
    ∧ (∀ (s : Settings) (m : Matchers) (cw : Option String) (now : Nat)
        (cands : List Candidate) (st : SchedState),
        (timerFire s m cw now cands st).1.scan.scanEpoch = st.scan.scanEpoch + 1 ∧
        (timerFire s m cw now cands st).1.scanTimer = false) := by
  refine ⟨?_, ?_, ?_, ?_⟩
  · intro st h
    unfold scheduleScan
    rw [if_pos h]
  · intro st sigs h
    induction sigs generalizing st with
    | nil => exact absurd rfl h
    | cons a rest ih =>
      rw [List.foldl_cons]
      cases rest with
      | nil => rfl
      | cons b r =>
        rw [ih (scheduleScan st) (List.cons_ne_nil b r)]
        exact scheduleScan_idem st
  · intro st
    unfold scheduleScan
    by_cases h : st.scanTimer
    · rw [if_pos h]
    · rw [if_neg h]
  · intro s m cw now cands st
    exact ⟨rfl, rfl⟩

/-- Witness for C8 at a concrete scheduler state and a two-signal
burst. -/
theorem C8_scheduler_single_flight_witness :
    ((⟨true, ⟨0, []⟩⟩ : SchedState).scanTimer = true ∧
      scheduleScan ⟨true, ⟨0, []⟩⟩ = ⟨true, ⟨0, []⟩⟩)
    ∧ (([(), ()] : List Unit) ≠ [] ∧
        ([(), ()] : List Unit).foldl (fun t _ => scheduleScan t) ⟨false, ⟨0, []⟩⟩ =
          scheduleScan ⟨false, ⟨0, []⟩⟩)
    ∧ (timerFire ⟨[], [], [], [], "show", false, 60, false⟩ ⟨[], [], [], []⟩
        none 0 [] ⟨true, ⟨0, []⟩⟩).1.scan.scanEpoch = 0 + 1 :=
  ⟨⟨rfl, C8_scheduler_single_flight.1 ⟨true, ⟨0, []⟩⟩ rfl⟩,
   ⟨by decide, C8_scheduler_single_flight.2.1 ⟨false, ⟨0, []⟩⟩ [(), ()] (by decide)⟩,
   (C8_scheduler_single_flight.2.2.2 ⟨[], [], [], [], "show", false, 60, false⟩
     ⟨[], [], [], []⟩ none 0 [] ⟨true, ⟨0, []⟩⟩).1⟩

/-- Claim C6: in a context that permits skipping (any context other
than the always-reprocess watch sidebar), a candidate whose processed
flag is set and whose stored key equals its freshly computed key — and
whose watch identity has not changed — is skipped: no classification,
no cache access, no visibility change; only the per-pass epoch stamp is
written.  Hence such an element is not reclassified until a rescan or
an identity change clears its processed state. -/
theorem C6_processed_skip (s : Settings) (m : Matchers) (scanEpoch : Nat)
    (currentWatchId : Option String) (now : Nat) (context : String)
    (data : VideoData) (el : Elem) (cache : Cache)
    (hctx : context ≠ "watch-sidebar")
    (hepoch : el.mvEpoch ≠ some (toString scanEpoch))
    (hdata : ¬(data.title = "" ∧ data.videoId.getD "" = ""))
    (hproc : el.mvProcessed = some "1")
    (hkey : el.mvKey.getD "" = elementKeyOf data)
    (hwatch : currentWatchId.getD "" = "" ∨
      el.mvWatchId = some (currentWatchId.getD "")) :
    processCandidate s m scanEpoch currentWatchId now context data el cache =
      ({ el with mvEpoch := some (toString scanEpoch) }, cache,
        Outcome.skippedProcessed) := by
  unfold processCandidate
  rw [if_neg hepoch, if_neg hdata]
  dsimp only
  have hwb : ¬(currentWatchId.getD "" ≠ "" ∧
      el.mvWatchId ≠ some (currentWatchId.getD "")) := by
    rcases hwatch with h | h
    · exact fun hcon => hcon.1 h
    · exact fun hcon => hcon.2 h
  rw [if_neg hwb]
  rw [if_pos ⟨hctx, hproc, hkey⟩]

/-- Witness for C6: a concrete already-processed home-context element
is skipped unchanged. -/
theorem C6_processed_skip_witness :
    ("home" ≠ "watch-sidebar"
      ∧ ({ mvProcessed := some "1", mvKey := some "title:song" } : Elem).mvEpoch ≠
          some (toString 4)
      ∧ ¬((extractVideoData "Song" "" "" "" none).title = "" ∧
          (extractVideoData "Song" "" "" "" none).videoId.getD "" = "")
      ∧ ({ mvProcessed := some "1", mvKey := some "title:song" } : Elem).mvProcessed =
          some "1"
      ∧ ({ mvProcessed := some "1", mvKey := some "title:song" } : Elem).mvKey.getD "" =
          elementKeyOf (extractVideoData "Song" "" "" "" none)
      ∧ ((none : Option String).getD "" = "" ∨
          ({ mvProcessed := some "1", mvKey := some "title:song" } : Elem).mvWatchId =
            some ((none : Option String).getD "")))
    ∧ processCandidate ⟨[], [], [], [], "show", false, 60, false⟩ ⟨[], [], [], []⟩
        4 none 0 "home" (extractVideoData "Song" "" "" "" none)
        { mvProcessed := some "1", mvKey := some "title:song" } [] =
      ({ ({ mvProcessed := some "1", mvKey := some "title:song" } : Elem) with
          mvEpoch := some (toString 4) }, [], Outcome.skippedProcessed) :=
  ⟨⟨by decide, by decide, by decide, by decide, by decide, by decide⟩,
    C6_processed_skip ⟨[], [], [], [], "show", false, 60, false⟩ ⟨[], [], [], []⟩
      4 none 0 "home" (extractVideoData "Song" "" "" "" none)
      { mvProcessed := some "1", mvKey := some "title:song" } []
      (by decide) (by decide) (by decide) (by decide) (by decide) (by decide)⟩

theorem sliceStr_length_le (n : Nat) (s : String) : (sliceStr n s).length ≤ n := by
  unfold sliceStr
  show (s.data.take n).length ≤ n
  rw [List.length_take]
  exact Nat.min_le_left n s.data.length

theorem mvKey_hideElement (el : Elem) : (hideElement el).mvKey = el.mvKey := rfl

theorem mvKey_unhideElement (el : Elem) : (unhideElement el).mvKey = el.mvKey := rfl

set_option maxHeartbeats 2000000 in
/-- Claim C10 (implicit): the per-element key is stored truncated to 200
characters while the skip test compares it to the full freshly computed
key, so an element whose computed key exceeds 200 characters never hits
the processed-for-same-key skip (it is re-examined on every pass);
every key the code stores is at most 200 characters long. -/
theorem C10_key_truncation :
    (∀ (s : Settings) (m : Matchers) (scanEpoch : Nat)
        (currentWatchId : Option String) (now : Nat) (context : String)
        (data : VideoData) (el : Elem) (cache : Cache),
      (∀ k, el.mvKey = some k → k.length ≤ 200) →
      200 < (elementKeyOf data).length →
      (processCandidate s m scanEpoch currentWatchId now context data el
        cache).2.2 ≠ Outcome.skippedProcessed)
    ∧ (∀ (s : Settings) (m : Matchers) (scanEpoch : Nat)
        (currentWatchId : Option String) (now : Nat) (context : String)
        (data : VideoData) (el : Elem) (cache : Cache) (k : String),
      (∀ k', el.mvKey = some k' → k'.length ≤ 200) →
      (processCandidate s m scanEpoch currentWatchId now context data el
        cache).1.mvKey = some k → k.length ≤ 200) := by
  constructor
  · intro s m scanEpoch cw now context data el cache hbound hlong
    have hgetd : (el.mvKey.getD "").length ≤ 200 := by
      cases hk : el.mvKey with
      | none => exact Nat.zero_le 200
      | some k => exact hbound k hk
    have hne : el.mvKey.getD "" ≠ elementKeyOf data := by
      intro hcon
      rw [congrArg String.length hcon] at hgetd
      omega
    unfold processCandidate
    by_cases hep : el.mvEpoch = some (toString scanEpoch)
    · rw [if_pos hep]
      exact fun hcon => Outcome.noConfusion hcon
    · rw [if_neg hep]
      try dsimp only
      by_cases hdata : data.title = "" ∧ data.videoId.getD "" = ""
      · rw [if_pos hdata]
        exact fun hcon => Outcome.noConfusion hcon
      · rw [if_neg hdata]
        try dsimp only
        by_cases hw : cw.getD "" ≠ "" ∧
            el.mvWatchId ≠ some (cw.getD "")
        · rw [if_pos hw]
          rw [if_neg (fun hcon => hne hcon.2.2)]
          try dsimp only
          split
          · split
            · exact fun hcon => Outcome.noConfusion hcon
            · exact fun hcon => Outcome.noConfusion hcon
          · exact fun hcon => Outcome.noConfusion hcon
        · rw [if_neg hw]
          rw [if_neg (fun hcon => hne hcon.2.2)]
          try dsimp only
          split
          · split
            · exact fun hcon => Outcome.noConfusion hcon
            · exact fun hcon => Outcome.noConfusion hcon
          · exact fun hcon => Outcome.noConfusion hcon
  · intro s m scanEpoch cw now context data el cache k hbound
    unfold processCandidate
    by_cases hep : el.mvEpoch = some (toString scanEpoch)
    · rw [if_pos hep]
      exact fun hk => hbound k hk
    · rw [if_neg hep]
      try dsimp only
      by_cases hdata : data.title = "" ∧ data.videoId.getD "" = ""
      · rw [if_pos hdata]
        exact fun hk => hbound k hk
      · rw [if_neg hdata]
        try dsimp only
        by_cases hw : cw.getD "" ≠ "" ∧ el.mvWatchId ≠ some (cw.getD "")
        · rw [if_pos hw]
          by_cases hskip : context ≠ "watch-sidebar" ∧
              (some "" : Option String) = some "1" ∧
              el.mvKey.getD "" = elementKeyOf data
          · rw [if_pos hskip]
            intro hk
            injection hk with hk
            subst hk
            decide
          · rw [if_neg hskip]
            try dsimp only
            by_cases hek : elementKeyOf data ≠ ""
            · rw [if_pos hek]
              try dsimp only
              split
              all_goals try split
              all_goals
                intro hk
              all_goals
                simp only [apply_ite Elem.mvKey, mvKey_unhideElement,
                  mvKey_hideElement, ite_self] at hk
              all_goals
                injection hk with hk
              all_goals
                exact hk ▸ sliceStr_length_le 200 _
            · rw [if_neg hek]
              try dsimp only
              split
              all_goals try split
              all_goals
                intro hk
              all_goals
                simp only [apply_ite Elem.mvKey, mvKey_unhideElement,
                  mvKey_hideElement, ite_self] at hk
              all_goals
                injection hk with hk
              all_goals
                exact hk ▸ (by decide : ("" : String).length ≤ 200)
        · rw [if_neg hw]
          by_cases hskip : context ≠ "watch-sidebar" ∧
              el.mvProcessed = some "1" ∧
              el.mvKey.getD "" = elementKeyOf data
          · rw [if_pos hskip]
            exact fun hk => hbound k hk
          · rw [if_neg hskip]
            try dsimp only
            by_cases hek : elementKeyOf data ≠ ""
            · rw [if_pos hek]
              try dsimp only
              split
              all_goals try split
              all_goals try split
              all_goals
                intro hk
              all_goals
                simp only [apply_ite Elem.mvKey, mvKey_unhideElement,
                  mvKey_hideElement, ite_self] at hk
              all_goals
                injection hk with hk
              all_goals
                exact hk ▸ sliceStr_length_le 200 _
            · rw [if_neg hek]
              try dsimp only
              split
              all_goals try split
              all_goals try split
              all_goals
                intro hk
              all_goals
                simp only [apply_ite Elem.mvKey, mvKey_unhideElement,
                  mvKey_hideElement, ite_self] at hk
              all_goals
                exact hbound k hk

set_option maxRecDepth 4000 in
/-- Witness for C10: a stored 200-character truncation of a
257-character key never matches the full key, so the element is
re-examined; and a freshly processed short-key element stores a key
within the bound. -/
theorem C10_key_truncation_witness :
    ((∀ k, (elTrunc250).mvKey = some k → k.length ≤ 200)
      ∧ 200 < (elementKeyOf (extractVideoData (keyA 250) "" "" "" none)).length
      ∧ (processCandidate ⟨[], [], [], [], "show", false, 60, false⟩
          ⟨[], [], [], []⟩ 1 none 0 "home"
          (extractVideoData (keyA 250) "" "" "" none)
          elTrunc250 []).2.2 ≠ Outcome.skippedProcessed)
    ∧ ((processCandidate ⟨[], [], [], [], "show", false, 60, false⟩
          ⟨[], [], [], []⟩ 1 none 0 "home"
          (extractVideoData "T" "" "" "" none) {} []).1.mvKey =
            some "title:t"
      ∧ ("title:t" : String).length ≤ 200) :=
  ⟨⟨fun k hk => by
      injection hk with hk
      exact hk ▸ sliceStr_length_le 200 _,
    by decide,
    C10_key_truncation.1 ⟨[], [], [], [], "show", false, 60, false⟩
      ⟨[], [], [], []⟩ 1 none 0 "home"
      (extractVideoData (keyA 250) "" "" "" none)
      elTrunc250 []
      (fun k hk => by
        injection hk with hk
        exact hk ▸ sliceStr_length_le 200 _)
      (by decide)⟩,
   ⟨by decide,
    C10_key_truncation.2 ⟨[], [], [], [], "show", false, 60, false⟩
      ⟨[], [], [], []⟩ 1 none 0 "home"
      (extractVideoData "T" "" "" "" none) {} [] "title:t"
      (fun k' hk' => Option.noConfusion hk')
      (by decide)⟩⟩

theorem length_mapDelete_le (c : Cache) (k : String) :
    (mapDelete c k).length ≤ c.length := by
  induction c with
  | nil => exact Nat.le_refl _
  | cons kv rest ih =>
    obtain ⟨k₀, e₀⟩ := kv
    rw [mapDelete_cons]
    by_cases h₀ : k₀ = k
    · rw [if_pos h₀]
      exact Nat.le_succ_of_le (Nat.le_refl _)
    · rw [if_neg h₀]
      simp only [List.length_cons]
      omega

theorem lookup_append_left {c₁ : Cache} {k : String} {e : CacheEntry} (c₂ : Cache)
    (h : lookupEntry c₁ k = some e) : lookupEntry (c₁ ++ c₂) k = some e := by
  induction c₁ with
  | nil => exact absurd h (by simp [lookupEntry])
  | cons kv rest ih =>
    obtain ⟨k₀, e₀⟩ := kv
    rw [List.cons_append, lookupEntry_cons]
    rw [lookupEntry_cons] at h
    by_cases h₀ : k₀ = k
    · rw [if_pos h₀] at h ⊢
      exact h
    · rw [if_neg h₀] at h ⊢
      exact ih h

theorem cacheGet_of_fst_none {now : Nat} {c : Cache} {k : String}
    (h : (cacheGet now c k).1 = none) : (cacheGet now c k).2 = c := by
  unfold cacheGet at h ⊢
  by_cases hk : k = ""
  · rw [if_pos hk]
  · rw [if_neg hk] at h ⊢
    cases hl : lookupEntry c k with
    | none => rfl
    | some e =>
      rw [hl] at h
      exact absurd h (by simp)

theorem cacheGet_preserve (now : Nat) (c : Cache) (k : String) :
    (cacheGet now c k).2.length ≤ c.length + 1 ∧
    ∀ k' e, lookupEntry c k' = some e →
      ∃ e', lookupEntry (cacheGet now c k).2 k' = some e' ∧ e'.isMusic = e.isMusic := by
  unfold cacheGet
  by_cases hk : k = ""
  · rw [if_pos hk]
    exact ⟨Nat.le_succ_of_le (Nat.le_refl _), fun k' e h => ⟨e, h, rfl⟩⟩
  · rw [if_neg hk]
    cases hl : lookupEntry c k with
    | none => exact ⟨Nat.le_succ_of_le (Nat.le_refl _), fun k' e h => ⟨e, h, rfl⟩⟩
    | some entry =>
      dsimp only
      constructor
      · calc (mapSet (mapDelete c k) k
            { isMusic := entry.isMusic, ts := now }).length
            ≤ (mapDelete c k).length + 1 := length_mapSet_le _ _ _
          _ ≤ c.length + 1 := by
              have := length_mapDelete_le c k
              omega
      · intro k' e h
        by_cases hkk : k' = k
        · subst hkk
          rw [hl] at h
          injection h with h
          exact ⟨{ isMusic := entry.isMusic, ts := now }, lookup_mapSet_self _ _ _,
            by rw [h]⟩
        · refine ⟨e, ?_, rfl⟩
          rw [lookup_mapSet_ne _ hkk, lookup_mapDelete_ne hkk]
          exact h

theorem cacheSet_preserve_of_miss {now : Nat} {c : Cache} {k : String} (b : Bool)
    (hlen : c.length < MAX_CACHE_ENTRIES) (hmiss : lookupEntry c k = none) :
    (cacheSet now c k b).length ≤ c.length + 1 ∧
    ∀ k' e, lookupEntry c k' = some e →
      ∃ e', lookupEntry (cacheSet now c k b) k' = some e' ∧ e'.isMusic = e.isMusic := by
  unfold cacheSet
  by_cases hk : k = ""
  · rw [if_pos hk]
    exact ⟨Nat.le_succ_of_le (Nat.le_refl _), fun k' e h => ⟨e, h, rfl⟩⟩
  · rw [if_neg hk]
    have hnm : k ∉ cacheKeys c := lookupEntry_eq_none_iff.1 hmiss
    rw [mapSet_of_not_mem _ hnm]
    rw [if_neg (by
      rw [List.length_append, List.length_singleton]
      omega)]
    constructor
    · rw [List.length_append, List.length_singleton]
    · intro k' e h
      exact ⟨e, lookup_append_left _ h, rfl⟩

/-- The cache effect of one `processCandidate` call: the cache is left
alone, refreshed through a hit, or extended through a miss. -/
theorem processCandidate_cache_cases (s : Settings) (m : Matchers) (epoch : Nat)
    (cw : Option String) (now : Nat) (ctx : String) (data : VideoData)
    (el : Elem) (cache : Cache) :
    (processCandidate s m epoch cw now ctx data el cache).2.1 = cache
    ∨ (∃ k, k ≠ "" ∧
        (processCandidate s m epoch cw now ctx data el cache).2.1 =
          (cacheGet now cache k).2)
    ∨ (∃ k b, k ≠ "" ∧ lookupEntry cache k = none ∧
        (processCandidate s m epoch cw now ctx data el cache).2.1 =
          cacheSet now cache k b) := by
  unfold processCandidate
  by_cases hep : el.mvEpoch = some (toString epoch)
  · rw [if_pos hep]
    exact Or.inl rfl
  · rw [if_neg hep]
    try dsimp only
    by_cases hdata : data.title = "" ∧ data.videoId.getD "" = ""
    · rw [if_pos hdata]
      exact Or.inl rfl
    · rw [if_neg hdata]
      try dsimp only
      by_cases hw : cw.getD "" ≠ "" ∧ el.mvWatchId ≠ some (cw.getD "")
      · rw [if_pos hw]
        by_cases hskip : ctx ≠ "watch-sidebar" ∧
            (some "" : Option String) = some "1" ∧
            el.mvKey.getD "" = elementKeyOf data
        · rw [if_pos hskip]
          exact Or.inl rfl
        · rw [if_neg hskip]
          try dsimp only
          by_cases hck : data.cacheKey.getD "" ≠ ""
          · rw [if_pos hck]
            split
            · rename_i cached cache₂ heq
              cases hl : lookupEntry cache (data.cacheKey.getD "") with
              | none =>
                exfalso
                unfold cacheGet at heq
                rw [if_neg hck, hl] at heq
                injection heq with h1 h2
                exact Option.noConfusion h1
              | some entry =>
                refine Or.inr (Or.inl ⟨data.cacheKey.getD "", hck, ?_⟩)
                rw [heq]
            · rename_i cache₂ heq
              have hl : lookupEntry cache (data.cacheKey.getD "") = none := by
                cases hl : lookupEntry cache (data.cacheKey.getD "") with
                | none => rfl
                | some entry =>
                  exfalso
                  unfold cacheGet at heq
                  rw [if_neg hck, hl] at heq
                  injection heq with h1 h2
                  exact Option.noConfusion h1
              have hc₂ : cache₂ = cache := by
                unfold cacheGet at heq
                rw [if_neg hck, hl] at heq
                injection heq with h1 h2
                exact h2.symm
              subst hc₂
              try dsimp only
              rw [if_pos hck]
              exact Or.inr (Or.inr ⟨data.cacheKey.getD "",
                (classifyVideo m s.defaultPolicy data).isMusic, hck, hl, rfl⟩)
          · rw [if_neg hck]
            try dsimp only
            rw [if_neg hck]
            exact Or.inl rfl
      · rw [if_neg hw]
        by_cases hskip : ctx ≠ "watch-sidebar" ∧ el.mvProcessed = some "1" ∧
            el.mvKey.getD "" = elementKeyOf data
        · rw [if_pos hskip]
          exact Or.inl rfl
        · rw [if_neg hskip]
          try dsimp only
          by_cases hck : data.cacheKey.getD "" ≠ ""
          · rw [if_pos hck]
            split
            · rename_i cached cache₂ heq
              cases hl : lookupEntry cache (data.cacheKey.getD "") with
              | none =>
                exfalso
                unfold cacheGet at heq
                rw [if_neg hck, hl] at heq
                injection heq with h1 h2
                exact Option.noConfusion h1
              | some entry =>
                refine Or.inr (Or.inl ⟨data.cacheKey.getD "", hck, ?_⟩)
                rw [heq]
            · rename_i cache₂ heq
              have hl : lookupEntry cache (data.cacheKey.getD "") = none := by
                cases hl : lookupEntry cache (data.cacheKey.getD "") with
                | none => rfl
                | some entry =>
                  exfalso
                  unfold cacheGet at heq
                  rw [if_neg hck, hl] at heq
                  injection heq with h1 h2
                  exact Option.noConfusion h1
              have hc₂ : cache₂ = cache := by
                unfold cacheGet at heq
                rw [if_neg hck, hl] at heq
                injection heq with h1 h2
                exact h2.symm
              subst hc₂
              try dsimp only
              rw [if_pos hck]
              exact Or.inr (Or.inr ⟨data.cacheKey.getD "",
                (classifyVideo m s.defaultPolicy data).isMusic, hck, hl, rfl⟩)
          · rw [if_neg hck]
            try dsimp only
            rw [if_neg hck]
            exact Or.inl rfl

theorem processCandidate_cache_preserve (s : Settings) (m : Matchers) (epoch : Nat)
    (cw : Option String) (now : Nat) (ctx : String) (data : VideoData)
    (el : Elem) (cache : Cache) (hlen : cache.length < MAX_CACHE_ENTRIES) :
    (processCandidate s m epoch cw now ctx data el cache).2.1.length ≤
      cache.length + 1 ∧
    ∀ k e, lookupEntry cache k = some e →
      ∃ e', lookupEntry
          (processCandidate s m epoch cw now ctx data el cache).2.1 k = some e' ∧
        e'.isMusic = e.isMusic := by
  rcases processCandidate_cache_cases s m epoch cw now ctx data el cache with
    h | ⟨k, hk, h⟩ | ⟨k, b, hk, hmiss, h⟩
  · rw [h]
    exact ⟨Nat.le_succ_of_le (Nat.le_refl _), fun k e hl => ⟨e, hl, rfl⟩⟩
  · rw [h]
    exact cacheGet_preserve now cache k
  · rw [h]
    exact cacheSet_preserve_of_miss b hlen hmiss

/-- An element whose processed flag is not the literal "1" — as after
the rescan reset — is never skipped as already-processed. -/
theorem processCandidate_not_skippedProcessed (s : Settings) (m : Matchers)
    (epoch : Nat) (cw : Option String) (now : Nat) (ctx : String)
    (data : VideoData) (el : Elem) (cache : Cache)
    (h : el.mvProcessed ≠ some "1") :
    (processCandidate s m epoch cw now ctx data el cache).2.2 ≠
      Outcome.skippedProcessed := by
  unfold processCandidate
  by_cases hep : el.mvEpoch = some (toString epoch)
  · rw [if_pos hep]
    exact fun hcon => Outcome.noConfusion hcon
  · rw [if_neg hep]
    try dsimp only
    by_cases hdata : data.title = "" ∧ data.videoId.getD "" = ""
    · rw [if_pos hdata]
      exact fun hcon => Outcome.noConfusion hcon
    · rw [if_neg hdata]
      try dsimp only
      by_cases hw : cw.getD "" ≠ "" ∧ el.mvWatchId ≠ some (cw.getD "")
      · rw [if_pos hw]
        by_cases hskip : ctx ≠ "watch-sidebar" ∧
            (some "" : Option String) = some "1" ∧
            el.mvKey.getD "" = elementKeyOf data
        · exact absurd hskip.2.1 (by decide)
        · rw [if_neg hskip]
          try dsimp only
          split
          · split
            · exact fun hcon => Outcome.noConfusion hcon
            · exact fun hcon => Outcome.noConfusion hcon
          · exact fun hcon => Outcome.noConfusion hcon
      · rw [if_neg hw]
        by_cases hskip : ctx ≠ "watch-sidebar" ∧ el.mvProcessed = some "1" ∧
            el.mvKey.getD "" = elementKeyOf data
        · exact absurd hskip.2.1 h
        · rw [if_neg hskip]
          try dsimp only
          split
          · split
            · exact fun hcon => Outcome.noConfusion hcon
            · exact fun hcon => Outcome.noConfusion hcon
          · exact fun hcon => Outcome.noConfusion hcon

theorem scan_fold_preserve (s : Settings) (m : Matchers) (epoch : Nat)
    (cw : Option String) (now : Nat) :
    ∀ (cands : List Candidate) (cache : Cache) (outs : List (Elem × Outcome)),
      cache.length + cands.length ≤ MAX_CACHE_ENTRIES →
      (cands.foldl (fun (acc : Cache × List (Elem × Outcome)) (c : Candidate) =>
          ((processCandidate s m epoch cw now c.ctx c.data c.el acc.1).2.1,
            acc.2 ++
              [((processCandidate s m epoch cw now c.ctx c.data c.el acc.1).1,
                (processCandidate s m epoch cw now c.ctx c.data c.el acc.1).2.2)]))
        (cache, outs)).1.length ≤ cache.length + cands.length ∧
      ∀ k e, lookupEntry cache k = some e →
        ∃ e', lookupEntry
            (cands.foldl (fun (acc : Cache × List (Elem × Outcome)) (c : Candidate) =>
              ((processCandidate s m epoch cw now c.ctx c.data c.el acc.1).2.1,
                acc.2 ++
                  [((processCandidate s m epoch cw now c.ctx c.data c.el acc.1).1,
                    (processCandidate s m epoch cw now c.ctx c.data c.el acc.1).2.2)]))
            (cache, outs)).1 k = some e' ∧ e'.isMusic = e.isMusic := by
  intro cands
  induction cands with
  | nil =>
    intro cache outs hlen
    exact ⟨Nat.le_refl _, fun k e h => ⟨e, h, rfl⟩⟩
  | cons c rest ih =>
    intro cache outs hlen
    rw [List.foldl_cons]
    have hlt : cache.length < MAX_CACHE_ENTRIES := by
      simp only [List.length_cons] at hlen
      omega
    have hstep := processCandidate_cache_preserve s m epoch cw now c.ctx c.data
      c.el cache hlt
    have hrec := ih (processCandidate s m epoch cw now c.ctx c.data c.el cache).2.1
      (outs ++ [((processCandidate s m epoch cw now c.ctx c.data c.el cache).1,
        (processCandidate s m epoch cw now c.ctx c.data c.el cache).2.2)])
      (by
        simp only [List.length_cons] at hlen
        omega)
    constructor
    · calc _ ≤ (processCandidate s m epoch cw now c.ctx c.data c.el
            cache).2.1.length + rest.length := hrec.1
        _ ≤ cache.length + (c :: rest).length := by
            have := hstep.1
            simp only [List.length_cons]
            omega
    · intro k e h
      obtain ⟨e₁, he₁, hm₁⟩ := hstep.2 k e h
      obtain ⟨e₂, he₂, hm₂⟩ := hrec.2 k e₁ he₁
      exact ⟨e₂, he₂, hm₂.trans hm₁⟩

theorem scan_fold_outs (s : Settings) (m : Matchers) (epoch : Nat)
    (cw : Option String) (now : Nat) :
    ∀ (cands : List Candidate) (cache : Cache) (outs : List (Elem × Outcome)),
      (∀ c ∈ cands, c.el.mvProcessed ≠ some "1") →
      (∀ p ∈ outs, p.2 ≠ Outcome.skippedProcessed) →
      ∀ p ∈ (cands.foldl
          (fun (acc : Cache × List (Elem × Outcome)) (c : Candidate) =>
            ((processCandidate s m epoch cw now c.ctx c.data c.el acc.1).2.1,
              acc.2 ++
                [((processCandidate s m epoch cw now c.ctx c.data c.el acc.1).1,
                  (processCandidate s m epoch cw now c.ctx c.data c.el acc.1).2.2)]))
          (cache, outs)).2,
        p.2 ≠ Outcome.skippedProcessed := by
  intro cands
  induction cands with
  | nil =>
    intro cache outs _ houts p hp
    exact houts p hp
  | cons c rest ih =>
    intro cache outs hcands houts p hp
    rw [List.foldl_cons] at hp
    refine ih _ _
      (fun c' hc' => hcands c' (List.mem_cons_of_mem c hc')) ?_ p hp
    intro q hq
    rcases List.mem_append.1 hq with hq | hq
    · exact houts q hq
    · rw [List.mem_singleton.1 hq]
      exact processCandidate_not_skippedProcessed s m epoch cw now c.ctx c.data
        c.el cache (hcands c (List.mem_cons_self c rest))

theorem mvProcessed_resetCandidate (c : Candidate) :
    (resetCandidate c).el.mvProcessed = some "" := rfl

/-- Claim C7, amended: the forced rescan clears every enumerated
element's processed flag and stored key and reverts its visibility
before re-running a normal scan (so no candidate of the re-scan is
skipped as already-processed), and the rescan never alters any cached
decision: as long as the scan's insertions cannot push the cache over
`MAX_CACHE_ENTRIES`, every (key, decision) pair survives with its
payload intact (only its recency timestamp may be refreshed).  When the
bound is exceeded, least-recently-touched entries are evicted — the
counterexample below shows a pair that the claim as stated would
require to survive. -/
theorem C7_rescan_amended (s : Settings) (m : Matchers) (cw : Option String)
    (now : Nat) (cands : List Candidate) (st : ScanState) :
    (∀ p ∈ (rescanAll s m cw now cands st).2,
      p.2 ≠ Outcome.skippedProcessed)
    ∧ (st.cache.length + cands.length ≤ MAX_CACHE_ENTRIES →
        (rescanAll s m cw now cands st).1.cache.length ≤
          st.cache.length + cands.length ∧
        ∀ k e, lookupEntry st.cache k = some e →
          ∃ e', lookupEntry (rescanAll s m cw now cands st).1.cache k = some e' ∧
            e'.isMusic = e.isMusic) := by
  constructor
  · intro p hp
    unfold rescanAll scanNow at hp
    refine scan_fold_outs s m (st.scanEpoch + 1) cw now (cands.map resetCandidate)
      st.cache [] ?_ ?_ p hp
    · intro c hc
      obtain ⟨c₀, _, rfl⟩ := List.mem_map.1 hc
      rw [mvProcessed_resetCandidate]
      intro hcon
      injection hcon with hcon
      exact absurd hcon (by decide)
    · intro q hq
      exact absurd hq (List.not_mem_nil q)
  · intro hlen
    have h := scan_fold_preserve s m (st.scanEpoch + 1) cw now
      (cands.map resetCandidate) st.cache []
      (by rw [List.length_map]; exact hlen)
    unfold rescanAll scanNow
    refine ⟨?_, ?_⟩
    · calc _ ≤ st.cache.length + (cands.map resetCandidate).length := h.1
        _ = st.cache.length + cands.length := by rw [List.length_map]
    · exact fun k e hk => h.2 k e hk

/-- Counterexample to claim C7 as stated: with the cache already at its
`MAX_CACHE_ENTRIES` bound, a forced rescan whose scan classifies one
new item evicts the least-recently-touched pair — `(keyA 0, decision)`
is in the cache before the rescan and gone after it. -/
theorem C7_rescan_cache_counterexample :
    lookupEntry bigCacheC7 (keyA 0) = some { isMusic := true, ts := 0 }
    ∧ lookupEntry
        (rescanAll ⟨[], [], [], [], "show", false, 60, false⟩ ⟨[], [], [], []⟩
          none 1 [candC7] { scanEpoch := 0, cache := bigCacheC7 }).1.cache
        (keyA 0) = none := by
  have hrange : List.range MAX_CACHE_ENTRIES =
      0 :: (List.range 4999).map Nat.succ := by
    rw [show MAX_CACHE_ENTRIES = 4999 + 1 from rfl]
    exact List.range_succ_eq_map 4999
  have hbig : bigCacheC7 = (keyA 0, { isMusic := true, ts := 0 }) ::
      ((List.range 4999).map Nat.succ).map
        (fun n => (keyA n, { isMusic := true, ts := 0 })) := by
    unfold bigCacheC7
    rw [hrange, List.map_cons]
  have hlook0 : lookupEntry bigCacheC7 (keyA 0) =
      some { isMusic := true, ts := 0 } := by
    rw [hbig, lookupEntry_cons, if_pos rfl]
  have hidne : ∀ n : Nat, keyA n ≠ "id:x" := by
    intro n h
    have hd : List.replicate (n + 1) 'a' = ("id:x").data := congrArg String.data h
    have hlen : n + 1 = ("id:x").data.length := by
      have := congrArg List.length hd
      simpa using this
    have h4 : ("id:x").data.length = 4 := by decide
    have hn : n = 3 := by omega
    subst hn
    exact absurd h (by decide)
  have hidx_nm : "id:x" ∉ cacheKeys bigCacheC7 := by
    unfold bigCacheC7 cacheKeys
    rw [List.map_map]
    intro hcon
    obtain ⟨n, _, hn⟩ := List.mem_map.1 hcon
    exact hidne n hn
  have hmiss : lookupEntry bigCacheC7 "id:x" = none :=
    lookupEntry_eq_none_iff.2 hidx_nm
  have hk0_nm : keyA 0 ∉ cacheKeys (((List.range 4999).map Nat.succ).map
      fun n => (keyA n, ({ isMusic := true, ts := 0 } : CacheEntry))) := by
    unfold cacheKeys
    rw [List.map_map]
    intro hcon
    obtain ⟨n, hn1, hn⟩ := List.mem_map.1 hcon
    obtain ⟨j, _, rfl⟩ := List.mem_map.1 hn1
    have hj := keyA_injective (show keyA (Nat.succ j) = keyA 0 from hn)
    exact absurd hj (by omega)
  have hfinal : lookupEntry (cacheSet 1 bigCacheC7 "id:x" true) (keyA 0) = none := by
    unfold cacheSet
    rw [if_neg (by decide : ¬("id:x" : String) = "")]
    rw [mapSet_of_not_mem _ hidx_nm]
    rw [if_pos (by
      rw [List.length_append, List.length_singleton]
      unfold bigCacheC7
      rw [List.length_map, List.length_range]
      decide)]
    rw [hbig, List.cons_append]
    dsimp only [List.head?]
    rw [mapDelete_cons, if_pos rfl]
    rw [lookup_append_right_of_not_mem _ hk0_nm]
    rw [lookupEntry_cons, if_neg (by decide : ¬("id:x" : String) = keyA 0)]
    rfl
  refine ⟨hlook0, ?_⟩
  unfold rescanAll scanNow
  rw [List.map_cons, List.map_nil]
  dsimp only
  rw [List.foldl_cons, List.foldl_nil]
  try dsimp only
  have hrc : resetCandidate candC7 =
      { el := { mvKey := some "", mvProcessed := some "" }, data := dataC7,
        ctx := "home" } := by decide
  rw [hrc]
  try dsimp only
  unfold processCandidate
  rw [if_neg (by decide :
    ¬({ mvKey := some "", mvProcessed := some "" } : Elem).mvEpoch =
      some (toString (0 + 1)))]
  try dsimp only
  rw [if_neg (by decide :
    ¬(dataC7.title = "" ∧ dataC7.videoId.getD "" = ""))]
  try dsimp only
  rw [if_neg (by decide :
    ¬((none : Option String).getD "" ≠ "" ∧
      ({ mvKey := some "", mvProcessed := some "", mvEpoch := some (toString (0 + 1)) } :
        Elem).mvWatchId ≠ some ((none : Option String).getD "")))]
  rw [if_neg (by decide :
    ¬(("home" : String) ≠ "watch-sidebar" ∧
      ({ mvKey := some "", mvProcessed := some "", mvEpoch := some (toString (0 + 1)) } :
        Elem).mvProcessed = some "1" ∧
      (some "" : Option String).getD "" = elementKeyOf dataC7))]
  try dsimp only
  rw [if_pos (by decide : elementKeyOf dataC7 ≠ "")]
  try dsimp only
  rw [if_neg (by decide : ¬((none : Option String).getD "" ≠ ""))]
  try dsimp only
  rw [if_pos (by decide : dataC7.cacheKey.getD "" ≠ "")]
  have hget : cacheGet 1 bigCacheC7 (dataC7.cacheKey.getD "") =
      ((none : Option Bool), bigCacheC7) := by
    rw [show dataC7.cacheKey.getD "" = "id:x" from by decide]
    unfold cacheGet
    rw [if_neg (by decide : ¬("id:x" : String) = ""), hmiss]
  rw [hget]
  try dsimp only
  rw [if_pos (by decide : dataC7.cacheKey.getD "" ≠ "")]
  rw [show dataC7.cacheKey.getD "" = "id:x" from by decide]
  rw [show (classifyVideo ⟨[], [], [], []⟩
      (⟨[], [], [], [], "show", false, 60, false⟩ : Settings).defaultPolicy
      dataC7).isMusic = true from by decide]
  exact hfinal

/-- Witness for the amended C7 at a concrete one-candidate rescan over
a one-entry cache. -/
theorem C7_rescan_amended_witness :
    ((({ mvEpoch := some "1", mvKey := some "", mvProcessed := some "" } : Elem),
        Outcome.skippedNoData) ∈
        (rescanAll ⟨[], [], [], [], "show", false, 60, false⟩ ⟨[], [], [], []⟩
          none 0
          [{ el := {}, data := extractVideoData "" "" "" "" none, ctx := "home" }]
          { scanEpoch := 0, cache := [("k", { isMusic := true, ts := 0 })] }).2
      ∧ ((({ mvEpoch := some "1", mvKey := some "", mvProcessed := some "" } : Elem),
          Outcome.skippedNoData) : Elem × Outcome).2 ≠ Outcome.skippedProcessed)
    ∧ (([("k", ({ isMusic := true, ts := 0 } : CacheEntry))] : Cache).length + 1 ≤
          MAX_CACHE_ENTRIES
      ∧ lookupEntry [("k", { isMusic := true, ts := 0 })] "k" =
          some { isMusic := true, ts := 0 }
      ∧ ∃ e', lookupEntry
            (rescanAll ⟨[], [], [], [], "show", false, 60, false⟩ ⟨[], [], [], []⟩
              none 0
              [{ el := {}, data := extractVideoData "" "" "" "" none, ctx := "home" }]
              { scanEpoch := 0,
                cache := [("k", { isMusic := true, ts := 0 })] }).1.cache "k" =
            some e' ∧
          e'.isMusic = ({ isMusic := true, ts := 0 } : CacheEntry).isMusic) :=
  ⟨⟨by decide,
    (C7_rescan_amended ⟨[], [], [], [], "show", false, 60, false⟩ ⟨[], [], [], []⟩
      none 0
      [{ el := {}, data := extractVideoData "" "" "" "" none, ctx := "home" }]
      { scanEpoch := 0, cache := [("k", { isMusic := true, ts := 0 })] }).1
      _ (by decide)⟩,
   by decide, by decide,
   ((C7_rescan_amended ⟨[], [], [], [], "show", false, 60, false⟩ ⟨[], [], [], []⟩
      none 0
      [{ el := {}, data := extractVideoData "" "" "" "" none, ctx := "home" }]
      { scanEpoch := 0, cache := [("k", { isMusic := true, ts := 0 })] }).2
      (by decide)).2 "k" { isMusic := true, ts := 0 } (by decide)⟩

/-- Claim C4: cache round-trip — immediately after `put(k, d)`, `get(k)`
is a hit returning `d`; reads never change the stored decision payload
(a second `get` returns the same decision as the first); and `get`
returns `null` exactly on a miss.  Keys are the non-empty strings
(`id:…`/`title:…`; the empty string is the source's "no key" sentinel),
and the cache respects its size invariant. -/
theorem C4_cache_round_trip :
    (∀ (now nowg : Nat) (c : Cache) (k : String) (b : Bool),
      k ≠ "" → c.length ≤ MAX_CACHE_ENTRIES →
      (cacheGet nowg (cacheSet now c k b) k).1 = some b)
    ∧ (∀ (n₁ n₂ : Nat) (c : Cache) (k : String),
        (cacheGet n₂ (cacheGet n₁ c k).2 k).1 = (cacheGet n₁ c k).1)
    ∧ (∀ (now : Nat) (c : Cache) (k : String), k ≠ "" →
        ((cacheGet now c k).1 = none ↔ k ∉ cacheKeys c)) := by
  refine ⟨?_, ?_, ?_⟩
  · intro now nowg c k b hk hlen
    unfold cacheGet
    rw [if_neg hk, lookup_cacheSet_self b now hk hlen]
  · intro n₁ n₂ c k
    unfold cacheGet
    by_cases hk : k = ""
    · rw [if_pos hk, if_pos hk]
    · rw [if_neg hk]
      cases hl : lookupEntry c k with
      | none =>
        dsimp only
        rw [if_neg hk, hl]
      | some e =>
        dsimp only
        rw [if_neg hk, lookup_mapSet_self]
  · intro now c k hk
    unfold cacheGet
    rw [if_neg hk]
    cases hl : lookupEntry c k with
    | none =>
      dsimp only
      exact ⟨fun _ => lookupEntry_eq_none_iff.1 hl, fun _ => rfl⟩
    | some e =>
      dsimp only
      constructor
      · intro hcon
        exact absurd hcon (by simp)
      · intro hmem
        exact absurd (lookupEntry_eq_none_iff.2 hmem) (by rw [hl]; simp)

/-- Witness for C4 at concrete inputs. -/
theorem C4_cache_round_trip_witness :
    ("k" ≠ "" ∧ ([] : Cache).length ≤ MAX_CACHE_ENTRIES ∧
      (cacheGet 1 (cacheSet 0 [] "k" true) "k").1 = some true)
    ∧ (cacheGet 2 (cacheGet 1 [("k", { isMusic := false, ts := 0 })] "k").2 "k").1 =
        (cacheGet 1 [("k", { isMusic := false, ts := 0 })] "k").1
    ∧ ((cacheGet 0 ([] : Cache) "k").1 = none ↔ "k" ∉ cacheKeys ([] : Cache)) :=
  ⟨⟨by decide, by decide, C4_cache_round_trip.1 0 1 [] "k" true (by decide) (by decide)⟩,
   C4_cache_round_trip.2.1 1 2 [("k", { isMusic := false, ts := 0 })] "k",
   C4_cache_round_trip.2.2 0 [] "k" (by decide)⟩

/-- Claim C2: `durationToSeconds` returns `none` when the text contains
no digit; otherwise it keeps only digits and colons, splits on colon,
and sums the segments right to left with multipliers 1, 60, 3600, …
(expressed as a fold over the reversed segment list where each further
segment weighs another factor 60), with no bound on segment count or
value; `"1:02:03"` ↦ 3723, `"2:30"` ↦ 150, `"abc"` ↦ `none`,
`""` ↦ `none`. -/
theorem C2_duration_parsing :
    (∀ t : String, t.data.any Char.isDigit = false → durationToSeconds t = none)
    ∧ (∀ t : String, t.data.any Char.isDigit = true →
        durationToSeconds t =
          some (((segmentsOf t).reverse.map digitVal).foldr
            (fun v acc => v + 60 * acc) 0))
    ∧ durationToSeconds "1:02:03" = some 3723
    ∧ durationToSeconds "2:30" = some 150
    ∧ durationToSeconds "abc" = none
    ∧ durationToSeconds "" = none := by
  refine ⟨?_, ?_, ?_, ?_, ?_, ?_⟩
  · exact fun t h => durationToSeconds_none_of_no_digit h
  · exact fun t h => durationToSeconds_of_digit h
  · decide
  · decide
  · decide
  · decide

/-- Witness for C2 at concrete inputs. -/
theorem C2_duration_parsing_witness :
    ("abc".data.any Char.isDigit = false ∧ durationToSeconds "abc" = none)
    ∧ ("1:02:03".data.any Char.isDigit = true ∧
        durationToSeconds "1:02:03" =
          some (((segmentsOf "1:02:03").reverse.map digitVal).foldr
            (fun v acc => v + 60 * acc) 0)) :=
  ⟨⟨by decide, C2_duration_parsing.1 "abc" (by decide)⟩,
   ⟨by decide, C2_duration_parsing.2.1 "1:02:03" (by decide)⟩⟩

/-- Claim C9 (implicit): for every text containing at least one digit,
`durationToSeconds` returns a (non-negative, being a `Nat`) value — and
the `Number.isNaN` abort is unreachable: every segment that reaches the
loop is a non-empty digit string, on which `parseIntJS` succeeds. -/
theorem C9_nan_branch_unreachable :
    (∀ t : String, t.data.any Char.isDigit = true →
      ∃ n : Nat, durationToSeconds t = some n)
    ∧ (∀ t : String, ∀ p ∈ segmentsOf t,
        p ≠ [] ∧ parseIntJS p = some (digitVal p)) := by
  constructor
  · exact fun t h => durationToSeconds_isSome_of_digit h
  · intro t p hp
    have h := segments_digits p hp
    exact ⟨h.1, parseIntJS_of_digits h.1 h.2⟩

/-- Witness for C9 at concrete inputs. -/
theorem C9_nan_branch_unreachable_witness :
    ("2:30".data.any Char.isDigit = true ∧
      ∃ n : Nat, durationToSeconds "2:30" = some n)
    ∧ (['2'] ∈ segmentsOf "2:30" ∧
        ['2'] ≠ [] ∧ parseIntJS ['2'] = some (digitVal ['2'])) :=
  ⟨⟨by decide, C9_nan_branch_unreachable.1 "2:30" (by decide)⟩,
   ⟨by decide, C9_nan_branch_unreachable.2 "2:30" ['2'] (by decide)⟩⟩

/-- Claim C1: the classifier is an ordered first-match-wins cascade:
(1) strong token in the combined text → match, reason `strong`;
(2) else negative token → no-match, reason `non`; (3) else moderate
token → no-match `moderate+duration` when the duration strongly
contradicts, else match `moderate`; (4) else duration in target range
and channel-affinity token in the channel text → match
`duration+channel`; (5) else the default policy (match unless the policy
is exactly "hide"), reason `default`.  In particular a text with both a
strong and a negative token classifies per the strong rule. -/
theorem C1_classifier_cascade (m : Matchers) (p : String) (d : VideoData) :
    (containsAny (combinedText d) m.strong = true →
      classifyVideo m p d = { isMusic := true, reason := "strong" })
    ∧ (containsAny (combinedText d) m.strong = false →
       containsAny (combinedText d) m.non = true →
        classifyVideo m p d = { isMusic := false, reason := "non" })
    ∧ (containsAny (combinedText d) m.strong = false →
       containsAny (combinedText d) m.non = false →
       containsAny (combinedText d) m.moderate = true →
       durationStronglyContradicts d.durationSeconds = true →
        classifyVideo m p d = { isMusic := false, reason := "moderate+duration" })
    ∧ (containsAny (combinedText d) m.strong = false →
       containsAny (combinedText d) m.non = false →
       containsAny (combinedText d) m.moderate = true →
       durationStronglyContradicts d.durationSeconds = false →
        classifyVideo m p d = { isMusic := true, reason := "moderate" })
    ∧ (containsAny (combinedText d) m.strong = false →
       containsAny (combinedText d) m.non = false →
       containsAny (combinedText d) m.moderate = false →
       durationInMusicRange d.durationSeconds = true →
       containsAny (normalizeText d.channel) m.channel = true →
        classifyVideo m p d = { isMusic := true, reason := "duration+channel" })
    ∧ (containsAny (combinedText d) m.strong = false →
       containsAny (combinedText d) m.non = false →
       containsAny (combinedText d) m.moderate = false →
       (durationInMusicRange d.durationSeconds &&
         containsAny (normalizeText d.channel) m.channel) = false →
        classifyVideo m p d = { isMusic := decide (p ≠ "hide"), reason := "default" })
    ∧ (containsAny (combinedText d) m.strong = true →
       containsAny (combinedText d) m.non = true →
        classifyVideo m p d = { isMusic := true, reason := "strong" }) := by
  refine ⟨?_, ?_, ?_, ?_, ?_, ?_, ?_⟩
  · intro h1
    simp [classifyVideo, h1]
  · intro h1 h2
    simp [classifyVideo, h1, h2]
  · intro h1 h2 h3 h4
    simp [classifyVideo, h1, h2, h3, h4]
  · intro h1 h2 h3 h4
    simp [classifyVideo, h1, h2, h3, h4]
  · intro h1 h2 h3 h4 h5
    simp [classifyVideo, h1, h2, h3, h4, h5]
  · intro h1 h2 h3 h4
    simp [classifyVideo, h1, h2, h3, h4]
  · intro h1 h2
    simp [classifyVideo, h1]

/-- Witness for C1: the spec's own precedence example — strong
`["live session"]`, negative `["live"]`, title "Live Session
Highlights" — classifies as a match with reason `strong`. -/
theorem C1_classifier_cascade_witness :
    (containsAny
        (combinedText (extractVideoData "Live Session Highlights" "" "" "" none))
        (Matchers.mk ["live session"] [] ["live"] []).strong = true)
    ∧ (containsAny
        (combinedText (extractVideoData "Live Session Highlights" "" "" "" none))
        (Matchers.mk ["live session"] [] ["live"] []).non = true)
    ∧ classifyVideo (Matchers.mk ["live session"] [] ["live"] []) "show"
        (extractVideoData "Live Session Highlights" "" "" "" none) =
        { isMusic := true, reason := "strong" } :=
  ⟨by decide, by decide,
    (C1_classifier_cascade (Matchers.mk ["live session"] [] ["live"] []) "show"
      (extractVideoData "Live Session Highlights" "" "" "" none)).2.2.2.2.2.2
      (by decide) (by decide)⟩

/-- Claim C5: with an unknown duration (`none`), both duration
predicates are `false`; a moderate-keyword item with unknown duration
classifies as a match with reason `moderate`; and the
`duration+channel` rule can never fire for an item with unknown
duration. -/
theorem C5_null_duration_propagation :
    durationInMusicRange none = false
    ∧ durationStronglyContradicts none = false
    ∧ (∀ (m : Matchers) (p : String) (d : VideoData),
        d.durationSeconds = none →
        containsAny (combinedText d) m.strong = false →
        containsAny (combinedText d) m.non = false →
        containsAny (combinedText d) m.moderate = true →
        classifyVideo m p d = { isMusic := true, reason := "moderate" })
    ∧ (∀ (m : Matchers) (p : String) (d : VideoData),
        d.durationSeconds = none →
        (classifyVideo m p d).reason ≠ "duration+channel") := by
  refine ⟨rfl, rfl, ?_, ?_⟩
  · intro m p d hdur h1 h2 h3
    simp [classifyVideo, h1, h2, h3, hdur, durationStronglyContradicts]
  · intro m p d hdur
    unfold classifyVideo
    simp only [hdur]
    split
    · exact fun hcon => absurd hcon (by decide)
    · split
      · exact fun hcon => absurd hcon (by decide)
      · split
        · split
          · exact fun hcon => absurd hcon (by decide)
          · exact fun hcon => absurd hcon (by decide)
        · rw [show durationInMusicRange none = false from rfl]
          rw [Bool.false_and]
          rw [if_neg (by exact fun hcon => Bool.false_ne_true hcon)]
          intro hcon
          simp at hcon

/-- Witness for C5 at a concrete moderate-keyword item with unknown
duration. -/
theorem C5_null_duration_propagation_witness :
    ((extractVideoData "band practice" "" "" "" none).durationSeconds = none
      ∧ containsAny (combinedText (extractVideoData "band practice" "" "" "" none))
          (Matchers.mk [] ["practice"] [] []).strong = false
      ∧ containsAny (combinedText (extractVideoData "band practice" "" "" "" none))
          (Matchers.mk [] ["practice"] [] []).non = false
      ∧ containsAny (combinedText (extractVideoData "band practice" "" "" "" none))
          (Matchers.mk [] ["practice"] [] []).moderate = true
      ∧ classifyVideo (Matchers.mk [] ["practice"] [] []) "show"
          (extractVideoData "band practice" "" "" "" none) =
          { isMusic := true, reason := "moderate" })
    ∧ (classifyVideo (Matchers.mk [] ["practice"] [] []) "show"
        (extractVideoData "band practice" "" "" "" none)).reason ≠
        "duration+channel" :=
  ⟨⟨by decide, by decide, by decide, by decide,
    C5_null_duration_propagation.2.2.1 (Matchers.mk [] ["practice"] [] []) "show"
      (extractVideoData "band practice" "" "" "" none)
      (by decide) (by decide) (by decide) (by decide)⟩,
   C5_null_duration_propagation.2.2.2 (Matchers.mk [] ["practice"] [] []) "show"
     (extractVideoData "band practice" "" "" "" none) (by decide)⟩
